import Mathlib

/-!
# cache-guardian: a call-coalescing guard

Shallow embedding of `guardian.go` (package `guardian`): the `Guardian` type with its
two methods `Get` and `Set`, both of which hand a closure to the one
`singleflight.Group` held by the guard.

Concurrency is embedded as a step function over an explicit system state: every
invocation of `Get` or `Set` has an identifier and moves through the program points
of `Group.Do`; a schedule is a list of steps taken by the invocations.  Caller-supplied
actions are state-passing functions over an arbitrary world `W` (the backing store); an
action is applied to the world in one step and always returns (an action that panics or
never returns is outside the embedding).
-/

namespace guardian

/-! ## Go values -/

/-- Identifier of one invocation of `Get` or `Set` (one call frame). -/
abbrev Tid := Nat

/-- Go `[]byte`: `none` is the nil slice, `some l` a non-nil slice with contents `l`. -/
abbrev Bytes := Option (List (Fin 256))

/-- A non-nil Go error value, told apart by its text. -/
structure GoError where
  msg : String
deriving DecidableEq, Repr

/-- Go `error`: `none` is the nil error. -/
abbrev GoErr := Option GoError

/-- Go `errors.New`. -/
def errors.New (text : String) : GoError := ⟨text⟩

/-- Go `interface{}` values that reach the group: the untyped nil (what the closure of
`Set` returns) or a boxed `[]byte` (what the closure of `Get` returns; the box is there
also when the slice inside is nil). -/
inductive Iface where
  | nil
  | bytes (b : Bytes)
deriving DecidableEq, Repr

/-- `type GetAction func(key string) ([]byte, error)`, run against the world `W`. -/
abbrev GetAction (W : Type) := String → W → (Bytes × GoErr) × W

/-- `type SetAction func(key string) (err error)`, run against the world `W`. -/
abbrev SetAction (W : Type) := String → W → GoErr × W

/-- `func() (interface{}, error)`: the closure type `Group.Do` accepts. -/
abbrev Fn (W : Type) := W → (Iface × GoErr) × W

/-- Pointwise update of a table. -/
def upd {α β : Type} [DecidableEq α] (f : α → β) (a : α) (b : β) : α → β :=
  fun x => if x = a then b else f x

/-! ## The guard -/

/-- Modelled from the spec: the record `singleflight.call` of golang.org/x/sync, which is
not under src/.  It is the spec's InFlightCall: the eventual result (`val`, `err`), the
count of followers (`dups`) and the completion signal (`done`, the released wait group). -/
structure call where
  val : Iface
  err : GoErr
  dups : Nat
  done : Bool
deriving DecidableEq, Repr

/-- Modelled from the spec: `singleflight.Group` of golang.org/x/sync, which is not under
src/.  It is the spec's registry, the mapping from key to in-flight call; a call is named
by the invocation that created it. -/
structure Group where
  m : String → Option Tid

/-- `type Guardian struct { g singleflight.Group }`: one group, used by `Get` and `Set`
alike. -/
structure Guardian where
  g : Group

/-- `func New() *Guardian`: the zero group, whose registry is empty. -/
def New : Guardian := ⟨⟨fun _ => none⟩⟩

/-- The closure `Get` passes to `Do` (guardian.go lines 22-25): it applies `cmd` to `key`
and returns the slice boxed as `interface{}` together with the error. -/
def Guardian.getFn {W : Type} (key : String) (cmd : GetAction W) : Fn W :=
  fun w => ((Iface.bytes (cmd key w).1.1, (cmd key w).1.2), (cmd key w).2)

/-- What `Get` returns once `Do` has returned `(v, err, _)` (guardian.go lines 26-34). -/
def Guardian.getRet (v : Iface) (err : GoErr) : Bytes × GoErr :=
  match err with
  | some e => (none, some e)
  | none =>
    match v with
    | Iface.bytes b => (b, none)
    | Iface.nil => (none, some (errors.New "assert interface to []byte error"))

/-- The closure `Set` passes to `Do` (guardian.go lines 38-40): it returns the untyped nil
and the error of `cmd` applied to `key`. -/
def Guardian.setFn {W : Type} (key : String) (cmd : SetAction W) : Fn W :=
  fun w => ((Iface.nil, (cmd key w).1), (cmd key w).2)

/-- What `Set` returns once `Do` has returned `(_, err, _)` (guardian.go line 42). -/
def Guardian.setRet (_v : Iface) (err : GoErr) : GoErr := err

/-- An invocation of one of the two methods, with its arguments. -/
inductive Request (W : Type) where
  | get (key : String) (cmd : GetAction W)
  | set (key : String) (cmd : SetAction W)

/-- What an invocation hands back to its caller: `Get` a slice and an error, `Set` an
error. -/
inductive Ret where
  | get (b : Bytes) (err : GoErr)
  | set (err : GoErr)
deriving DecidableEq, Repr

/-- The key argument, which both methods pass on to `Do` unchanged. -/
def Request.key {W : Type} : Request W → String
  | Request.get key _ => key
  | Request.set key _ => key

/-- The closure the method passes to `Do`. -/
def Request.fn {W : Type} : Request W → Fn W
  | Request.get key cmd => Guardian.getFn key cmd
  | Request.set key cmd => Guardian.setFn key cmd

/-- The method's code after `Do` has returned. -/
def Request.ret {W : Type} : Request W → Iface → GoErr → Ret
  | Request.get _ _, v, err => Ret.get (Guardian.getRet v err).1 (Guardian.getRet v err).2
  | Request.set _ _, v, err => Ret.set (Guardian.setRet v err)

/-- Whether the invocation is a `Get`. -/
def Request.isGet {W : Type} : Request W → Bool
  | Request.get _ _ => true
  | Request.set _ _ => false

/-! ## Invocations as a step function -/

/-- Program point of an invocation inside `Group.Do`. -/
inductive Thread (W : Type) where
  /-- The method has not been called yet. -/
  | idle
  /-- Found no call for the key, registered a new one, has not run the closure yet. -/
  | owner (r : Request W)
  /-- Ran the closure and stored its result in the call; the call is still registered. -/
  | ran (r : Request W)
  /-- Found the call `c` registered for the key and waits for its completion signal. -/
  | waiting (r : Request W) (c : Tid)
  /-- The method returned `out`, which is the outcome of the call `c`. -/
  | returned (r : Request W) (c : Tid) (out : Ret)

/-- The whole system: the guard, the call records, the invocations, the world the
actions act on, and the record of which invocation's action was applied to which key. -/
structure Sys (W : Type) where
  cm : Guardian
  heap : Tid → call
  th : Tid → Thread W
  world : W
  invoked : List (Tid × String)

/-- A fresh guard in world `w`, nothing called yet. -/
def Sys.init {W : Type} (w : W) : Sys W :=
  { cm := New, heap := fun _ => ⟨Iface.nil, none, 0, false⟩, th := fun _ => Thread.idle,
    world := w, invoked := [] }

/-- One step of one invocation. -/
inductive Action (W : Type) where
  /-- The method is called and `Do` performs its check of the registry. -/
  | arrive (t : Tid) (r : Request W)
  /-- The owner runs the closure and stores the result in the call. -/
  | runFn (t : Tid)
  /-- The owner releases the waiters, removes the call from the registry and returns. -/
  | retire (t : Tid)
  /-- A waiter is released, adopts the outcome of the call and returns. -/
  | wake (t : Tid)

/-- The invocation that takes the step. -/
def Action.tid {W : Type} : Action W → Tid
  | Action.arrive t _ => t
  | Action.runFn t => t
  | Action.retire t => t
  | Action.wake t => t

/-- Modelled from the spec: `singleflight.Group.Do` of golang.org/x/sync, which is not
under src/, cut at its synchronisation points (spec section 4.1, steps 1 to 3).
`arrive`: check the registry for the key as one atomic unit; with a call present register
as a follower of it, otherwise create a call and own it.  `runFn`: the owner executes the
closure and captures value and error as the outcome of the call.  `retire`: the owner
removes the call from the registry, signals the followers and returns the outcome.
`wake`: a follower, once signalled, adopts the outcome and returns.  A step that is not
enabled gives `none`. -/
def step {W : Type} (s : Sys W) : Action W → Option (Sys W)
  | Action.arrive t r =>
    match s.th t with
    | Thread.idle =>
      match s.cm.g.m r.key with
      | some c =>
        some { s with
          heap := upd s.heap c { s.heap c with dups := (s.heap c).dups + 1 }
          th := upd s.th t (Thread.waiting r c) }
      | none =>
        some { s with
          cm := ⟨⟨upd s.cm.g.m r.key (some t)⟩⟩
          heap := upd s.heap t ⟨Iface.nil, none, 0, false⟩
          th := upd s.th t (Thread.owner r) }
    | _ => none
  | Action.runFn t =>
    match s.th t with
    | Thread.owner r =>
      some { s with
        heap := upd s.heap t
          { s.heap t with val := (r.fn s.world).1.1, err := (r.fn s.world).1.2 }
        th := upd s.th t (Thread.ran r)
        world := (r.fn s.world).2
        invoked := s.invoked ++ [(t, r.key)] }
    | _ => none
  | Action.retire t =>
    match s.th t with
    | Thread.ran r =>
      some { s with
        cm := ⟨⟨if s.cm.g.m r.key = some t then upd s.cm.g.m r.key none else s.cm.g.m⟩⟩
        heap := upd s.heap t { s.heap t with done := true }
        th := upd s.th t (Thread.returned r t (r.ret (s.heap t).val (s.heap t).err)) }
    | _ => none
  | Action.wake t =>
    match s.th t with
    | Thread.waiting r c =>
      if (s.heap c).done = true then
        some { s with
          th := upd s.th t (Thread.returned r c (r.ret (s.heap c).val (s.heap c).err)) }
      else none
    | _ => none

/-- Run a schedule; `none` when some step of it is not enabled. -/
def run {W : Type} (s : Sys W) : List (Action W) → Option (Sys W)
  | [] => some s
  | a :: as => (step s a).bind (fun s1 => run s1 as)

/-- What invocation `t` has returned, if it has. -/
def Sys.result {W : Type} (s : Sys W) (t : Tid) : Option Ret :=
  match s.th t with
  | Thread.returned _ _ out => some out
  | _ => none

/-- The call whose outcome invocation `t` waits for or has returned. -/
def Sys.adopted {W : Type} (s : Sys W) (t : Tid) : Option Tid :=
  match s.th t with
  | Thread.owner _ => some t
  | Thread.ran _ => some t
  | Thread.waiting _ c => some c
  | Thread.returned _ c _ => some c
  | Thread.idle => none

/-- How often the action of invocation `t` has been applied. -/
def Sys.runs {W : Type} (s : Sys W) (t : Tid) : Nat :=
  (s.invoked.map Prod.fst).count t

/-- The five ways a step can be taken. -/
inductive StepCase {W : Type} (s : Sys W) (a : Action W) (s1 : Sys W) : Prop where
  | join (t : Tid) (r : Request W) (c : Tid) (ha : a = Action.arrive t r)
      (hidle : s.th t = Thread.idle) (hm : s.cm.g.m r.key = some c)
      (hs : s1 = { s with
        heap := upd s.heap c { s.heap c with dups := (s.heap c).dups + 1 }
        th := upd s.th t (Thread.waiting r c) })
  | own (t : Tid) (r : Request W) (ha : a = Action.arrive t r)
      (hidle : s.th t = Thread.idle) (hm : s.cm.g.m r.key = none)
      (hs : s1 = { s with
        cm := ⟨⟨upd s.cm.g.m r.key (some t)⟩⟩
        heap := upd s.heap t ⟨Iface.nil, none, 0, false⟩
        th := upd s.th t (Thread.owner r) })
  | runFn (t : Tid) (r : Request W) (ha : a = Action.runFn t)
      (ho : s.th t = Thread.owner r)
      (hs : s1 = { s with
        heap := upd s.heap t
          { s.heap t with val := (r.fn s.world).1.1, err := (r.fn s.world).1.2 }
        th := upd s.th t (Thread.ran r)
        world := (r.fn s.world).2
        invoked := s.invoked ++ [(t, r.key)] })
  | retire (t : Tid) (r : Request W) (ha : a = Action.retire t)
      (hr : s.th t = Thread.ran r)
      (hs : s1 = { s with
        cm := ⟨⟨if s.cm.g.m r.key = some t then upd s.cm.g.m r.key none else s.cm.g.m⟩⟩
        heap := upd s.heap t { s.heap t with done := true }
        th := upd s.th t (Thread.returned r t (r.ret (s.heap t).val (s.heap t).err)) })
  | wake (t : Tid) (r : Request W) (c : Tid) (ha : a = Action.wake t)
      (hw : s.th t = Thread.waiting r c) (hd : (s.heap c).done = true)
      (hs : s1 = { s with
        th := upd s.th t (Thread.returned r c (r.ret (s.heap c).val (s.heap c).err)) })

/-- The state after a schedule (the state itself when the schedule does not run). -/
def Sys.after {W : Type} (s : Sys W) (l : List (Action W)) : Sys W := (run s l).getD s

/-- A state that some schedule reaches from a fresh guard. -/
def Reachable {W : Type} (s : Sys W) : Prop :=
  ∃ (w : W) (l : List (Action W)), run (Sys.init w) l = some s

/-- The call `c` was created by an invocation with request `rc`, which is about to run the
closure, has run it, or has returned the stored outcome. -/
def Sys.owns {W : Type} (s : Sys W) (c : Tid) (rc : Request W) : Prop :=
  s.th c = Thread.owner rc ∨ s.th c = Thread.ran rc ∨
    s.th c = Thread.returned rc c (rc.ret (s.heap c).val (s.heap c).err)

/-- What holds in every reachable state. -/
structure Inv {W : Type} (s : Sys W) : Prop where
  reg : ∀ k c, s.cm.g.m k = some c →
    ∃ r : Request W, r.key = k ∧ (s.th c = Thread.owner r ∨ s.th c = Thread.ran r)
  done_ret : ∀ c, (s.heap c).done = true →
    ∃ r : Request W, s.th c = Thread.returned r c (r.ret (s.heap c).val (s.heap c).err)
  wait_own : ∀ t r c, s.th t = Thread.waiting r c → ∃ rc, rc.key = r.key ∧ s.owns c rc
  ret_own : ∀ t r c out, s.th t = Thread.returned r c out →
    out = r.ret (s.heap c).val (s.heap c).err ∧ (s.heap c).done = true ∧
      ∃ rc : Request W, rc.key = r.key ∧
        s.th c = Thread.returned rc c (rc.ret (s.heap c).val (s.heap c).err)
  stored : ∀ c rc, (s.th c = Thread.ran rc ∨ ∃ out, s.th c = Thread.returned rc c out) →
    ∃ w : W, (s.heap c).val = (rc.fn w).1.1 ∧ (s.heap c).err = (rc.fn w).1.2
  nodup : (s.invoked.map Prod.fst).Nodup
  mem : ∀ t k, (t, k) ∈ s.invoked ↔
    ∃ r : Request W, r.key = k ∧
      (s.th t = Thread.ran r ∨ ∃ out, s.th t = Thread.returned r t out)

/-- Invocation `c`, with request `rc`, has run its closure: it is about to retire its call
or has returned its outcome. -/
def Sys.hasRun {W : Type} (s : Sys W) (c : Tid) (rc : Request W) : Prop :=
  s.th c = Thread.ran rc ∨ ∃ o, s.th c = Thread.returned rc c o

/-- `TakenAt s0 hist pre a sp sq`: in the run of the schedule `hist` from `s0`, after the
steps `pre`, the step `a` is taken in state `sp` and leads to state `sq`. -/
def TakenAt {W : Type} (s0 : Sys W) (hist pre : List (Action W)) (a : Action W)
    (sp sq : Sys W) : Prop :=
  (∃ post, hist = pre ++ a :: post) ∧ run s0 pre = some sp ∧ step sp a = some sq

/-- `Yields r w out w1`, stated on the caller's action alone: one application of the
action of request `r` to the key of `r` in world `w` leaves the world `w1`, and `out` is
what the method owes its caller for it.  For `Get`: the payload with a nil error when the
action returned a nil error, the nil slice with the action's error otherwise.  For `Set`:
the action's error. -/
def Yields {W : Type} : Request W → W → Ret → W → Prop
  | Request.get key cmd, w, out, w1 =>
    w1 = (cmd key w).2 ∧
    (∀ p, (cmd key w).1 = (p, none) → out = Ret.get p none) ∧
    (∀ p e, (cmd key w).1 = (p, some e) → out = Ret.get none (some e))
  | Request.set key cmd, w, out, w1 =>
    w1 = (cmd key w).2 ∧ out = Ret.set (cmd key w).1

/-! ## The backing store of guardian_test.go -/

/-- A Go `int32` after an arithmetic operation: wrapped into its range. -/
def int32 (x : Int) : Int := (x + 2147483648) % 4294967296 - 2147483648

/-- `type FakeAPICache struct` of guardian_test.go: two counters and the map. -/
structure FakeAPICache where
  OpsGet : Int
  OpsSet : Int
  M : String → Option (List (Fin 256))

/-- `func (f *FakeAPICache) Set`: counts the write, stores the value, never fails; the
duration `d` is not used. -/
def FakeAPICache.Set (key : String) (value : List (Fin 256)) (_d : Int) (f : FakeAPICache) :
    GoErr × FakeAPICache :=
  (none, { f with OpsSet := int32 (f.OpsSet + 1), M := upd f.M key (some value) })

/-- `func (f *FakeAPICache) Get`: fails on a key that is not in the map, otherwise counts
the read and returns the value. -/
def FakeAPICache.Get (key : String) (f : FakeAPICache) : (Bytes × GoErr) × FakeAPICache :=
  match f.M key with
  | none => ((none, some (errors.New ("key " ++ key ++ " does not exists"))), f)
  | some val => ((some val, none), { f with OpsGet := int32 (f.OpsGet + 1) })

/-- `fc := &FakeAPICache{M: make(map[string][]byte)}`. -/
def FakeAPICache.empty : FakeAPICache := ⟨0, 0, fun _ => none⟩

/-- A store that already holds `value` under `key`. -/
def FakeAPICache.holding (key : String) (value : List (Fin 256)) : FakeAPICache :=
  ⟨0, 0, upd (fun _ => none) key (some value)⟩

/-- The fetch closure of the tests: `func(key string) ([]byte, error) { return fc.Get(key) }`. -/
def fetchFake : GetAction FakeAPICache := fun key f => FakeAPICache.Get key f

/-- The write closure of the tests, storing `value`:
`func(key string) (err error) { return fc.Set(key, value, time.Second) }`. -/
def writeFake (value : List (Fin 256)) : SetAction FakeAPICache :=
  fun key f => FakeAPICache.Set key value 1000000000 f

/-- A fetch that hands back a payload together with an error. -/
def fetchBoth : GetAction Unit :=
  fun _ w => ((some [1, 2], some (errors.New "backend down")), w)

/-- A write that succeeds and leaves the world alone. -/
def writeOk : SetAction Unit := fun _ w => (none, w)

/-- A fetch that succeeds with the payload `[1, 2]`. -/
def fetchOk : GetAction Unit := fun _ w => ((some [1, 2], none), w)

/-! # Properties -/

variable {W : Type}

/-! ## Tables and lists -/

@[simp] theorem upd_same {α β : Type} [DecidableEq α] (f : α → β) (a : α) (b : β) :
    upd f a b a = b := by
  simp [upd]

theorem upd_other {α β : Type} [DecidableEq α] (f : α → β) (a x : α) (b : β) (h : x ≠ a) :
    upd f a b x = f x := by
  simp [upd, h]

theorem upd_apply {α β : Type} [DecidableEq α] (f : α → β) (a x : α) (b : β) :
    upd f a b x = if x = a then b else f x := rfl

/-- A list without repeated first components has exactly one entry for a first
component that occurs in it. -/
theorem filter_fst_eq_singleton (l : List (Tid × String)) (t : Tid) (k : String)
    (hnd : (l.map Prod.fst).Nodup) (hmem : (t, k) ∈ l) :
    l.filter (fun e => decide (e.1 = t)) = [(t, k)] := by
  induction l with
  | nil => simp at hmem
  | cons x xs ih =>
    simp only [List.map_cons, List.nodup_cons] at hnd
    rcases List.mem_cons.1 hmem with h | h
    · subst h
      have hnone : xs.filter (fun e => decide (e.1 = t)) = [] := by
        rw [List.filter_eq_nil_iff]
        intro e he hdec
        have he1 : e.1 = t := by simpa using hdec
        exact hnd.1 (List.mem_map.2 ⟨e, he, he1⟩)
      simp [List.filter_cons, hnone]
    · have hx : x.1 ≠ t := by
        intro hxt
        apply hnd.1
        rw [hxt]
        exact List.mem_map_of_mem Prod.fst h
      simp [List.filter_cons, hx, ih hnd.2 h]

/-! ## Single steps -/

theorem step_arrive_join (s : Sys W) (t : Tid) (r : Request W) (c : Tid)
    (hidle : s.th t = Thread.idle) (hm : s.cm.g.m r.key = some c) :
    step s (Action.arrive t r) = some { s with
      heap := upd s.heap c { s.heap c with dups := (s.heap c).dups + 1 }
      th := upd s.th t (Thread.waiting r c) } := by
  simp [step, hidle, hm]

theorem step_arrive_own (s : Sys W) (t : Tid) (r : Request W)
    (hidle : s.th t = Thread.idle) (hm : s.cm.g.m r.key = none) :
    step s (Action.arrive t r) = some { s with
      cm := ⟨⟨upd s.cm.g.m r.key (some t)⟩⟩
      heap := upd s.heap t ⟨Iface.nil, none, 0, false⟩
      th := upd s.th t (Thread.owner r) } := by
  simp [step, hidle, hm]

theorem step_runFn (s : Sys W) (t : Tid) (r : Request W) (ho : s.th t = Thread.owner r) :
    step s (Action.runFn t) = some { s with
      heap := upd s.heap t
        { s.heap t with val := (r.fn s.world).1.1, err := (r.fn s.world).1.2 }
      th := upd s.th t (Thread.ran r)
      world := (r.fn s.world).2
      invoked := s.invoked ++ [(t, r.key)] } := by
  simp [step, ho]

theorem step_retire (s : Sys W) (t : Tid) (r : Request W) (hr : s.th t = Thread.ran r) :
    step s (Action.retire t) = some { s with
      cm := ⟨⟨if s.cm.g.m r.key = some t then upd s.cm.g.m r.key none else s.cm.g.m⟩⟩
      heap := upd s.heap t { s.heap t with done := true }
      th := upd s.th t (Thread.returned r t (r.ret (s.heap t).val (s.heap t).err)) } := by
  simp [step, hr]

theorem step_wake (s : Sys W) (t : Tid) (r : Request W) (c : Tid)
    (hw : s.th t = Thread.waiting r c) (hd : (s.heap c).done = true) :
    step s (Action.wake t) = some { s with
      th := upd s.th t (Thread.returned r c (r.ret (s.heap c).val (s.heap c).err)) } := by
  simp [step, hw, hd]

theorem step_cases {s : Sys W} {a : Action W} {s1 : Sys W} (h : step s a = some s1) :
    StepCase s a s1 := by
  cases a with
  | arrive t r =>
    cases hth : s.th t with
    | idle =>
      cases hm : s.cm.g.m r.key with
      | none =>
        rw [step_arrive_own s t r hth hm] at h
        exact StepCase.own t r rfl hth hm (Option.some.inj h).symm
      | some c =>
        rw [step_arrive_join s t r c hth hm] at h
        exact StepCase.join t r c rfl hth hm (Option.some.inj h).symm
    | owner r0 => simp [step, hth] at h
    | ran r0 => simp [step, hth] at h
    | waiting r0 c0 => simp [step, hth] at h
    | returned r0 c0 o0 => simp [step, hth] at h
  | runFn t =>
    cases hth : s.th t with
    | owner r0 =>
      rw [step_runFn s t r0 hth] at h
      exact StepCase.runFn t r0 rfl hth (Option.some.inj h).symm
    | idle => simp [step, hth] at h
    | ran r0 => simp [step, hth] at h
    | waiting r0 c0 => simp [step, hth] at h
    | returned r0 c0 o0 => simp [step, hth] at h
  | retire t =>
    cases hth : s.th t with
    | ran r0 =>
      rw [step_retire s t r0 hth] at h
      exact StepCase.retire t r0 rfl hth (Option.some.inj h).symm
    | idle => simp [step, hth] at h
    | owner r0 => simp [step, hth] at h
    | waiting r0 c0 => simp [step, hth] at h
    | returned r0 c0 o0 => simp [step, hth] at h
  | wake t =>
    cases hth : s.th t with
    | waiting r0 c0 =>
      by_cases hd : (s.heap c0).done = true
      · rw [step_wake s t r0 c0 hth hd] at h
        exact StepCase.wake t r0 c0 rfl hth hd (Option.some.inj h).symm
      · simp [step, hth, hd] at h
    | idle => simp [step, hth] at h
    | owner r0 => simp [step, hth] at h
    | ran r0 => simp [step, hth] at h
    | returned r0 c0 o0 => simp [step, hth] at h

/-! ## The invariant -/

theorem inv_init (w : W) : Inv (Sys.init w) := by
  constructor <;> simp [Sys.init, New]

theorem inv_join {s : Sys W} (hi : Inv s) (t : Tid) (r : Request W) (c : Tid)
    (hidle : s.th t = Thread.idle) (hm : s.cm.g.m r.key = some c) :
    Inv { s with
      heap := upd s.heap c { s.heap c with dups := (s.heap c).dups + 1 }
      th := upd s.th t (Thread.waiting r c) } := by
  obtain ⟨rc0, hk0, hc0⟩ := hi.reg _ _ hm
  have hct : c ≠ t := by
    rintro rfl
    rcases hc0 with h | h <;> simp [hidle] at h
  have hval : ∀ x, (upd s.heap c { s.heap c with dups := (s.heap c).dups + 1 } x).val
      = (s.heap x).val := by
    intro x; by_cases hx : x = c <;> simp [upd_apply, hx]
  have herr : ∀ x, (upd s.heap c { s.heap c with dups := (s.heap c).dups + 1 } x).err
      = (s.heap x).err := by
    intro x; by_cases hx : x = c <;> simp [upd_apply, hx]
  have hdone : ∀ x, (upd s.heap c { s.heap c with dups := (s.heap c).dups + 1 } x).done
      = (s.heap x).done := by
    intro x; by_cases hx : x = c <;> simp [upd_apply, hx]
  have hth : ∀ x, x ≠ t → upd s.th t (Thread.waiting r c) x = s.th x :=
    fun x hx => upd_other _ _ _ _ hx
  have hne : ∀ x, s.th x ≠ Thread.idle → x ≠ t := by
    rintro x hx rfl; exact hx hidle
  constructor
  · intro k c1 hk
    obtain ⟨r1, hr1, h1⟩ := hi.reg k c1 hk
    refine ⟨r1, hr1, ?_⟩
    have : c1 ≠ t := hne c1 (by rcases h1 with h | h <;> simp [h])
    simpa [hth c1 this] using h1
  · intro c1 hd
    simp only [hval, herr, hdone] at hd ⊢
    obtain ⟨r1, h1⟩ := hi.done_ret c1 hd
    have : c1 ≠ t := hne c1 (by simp [h1])
    exact ⟨r1, by simpa [hth c1 this] using h1⟩
  · intro t1 r1 c1 hw
    simp only [Sys.owns, hval, herr]
    by_cases ht1 : t1 = t
    · subst ht1
      simp only [upd_same, Thread.waiting.injEq] at hw
      obtain ⟨rfl, rfl⟩ := hw
      refine ⟨rc0, hk0, ?_⟩
      rw [hth c hct]
      rcases hc0 with h | h
      · exact Or.inl h
      · exact Or.inr (Or.inl h)
    · simp only [hth t1 ht1] at hw
      obtain ⟨rc, hrc, ho⟩ := hi.wait_own t1 r1 c1 hw
      refine ⟨rc, hrc, ?_⟩
      have : c1 ≠ t := hne c1 (by rcases ho with h | h | h <;> simp [h])
      rw [hth c1 this]
      exact ho
  · intro t1 r1 c1 out hr
    simp only [hval, herr, hdone]
    have ht1 : t1 ≠ t := by
      rintro rfl
      simp at hr
    simp only [hth t1 ht1] at hr
    obtain ⟨h1, h2, rc, hrc, h3⟩ := hi.ret_own t1 r1 c1 out hr
    have : c1 ≠ t := hne c1 (by simp [h3])
    exact ⟨h1, h2, rc, hrc, by simpa [hth c1 this] using h3⟩
  · intro c1 rc h
    simp only [hval, herr]
    have hc1 : c1 ≠ t := by
      rintro rfl
      rcases h with h | ⟨o, h⟩ <;> simp at h
    simp only [hth c1 hc1] at h
    exact hi.stored c1 rc h
  · exact hi.nodup
  · intro t1 k
    rw [hi.mem t1 k]
    by_cases ht1 : t1 = t
    · subst ht1
      simp [hidle]
    · simp [hth t1 ht1]

theorem inv_own {s : Sys W} (hi : Inv s) (t : Tid) (r : Request W)
    (hidle : s.th t = Thread.idle) :
    Inv { s with
      cm := ⟨⟨upd s.cm.g.m r.key (some t)⟩⟩
      heap := upd s.heap t ⟨Iface.nil, none, 0, false⟩
      th := upd s.th t (Thread.owner r) } := by
  have hth : ∀ x, x ≠ t → upd s.th t (Thread.owner r) x = s.th x :=
    fun x hx => upd_other _ _ _ _ hx
  have hhp : ∀ x, x ≠ t → upd s.heap t ⟨Iface.nil, none, 0, false⟩ x = s.heap x :=
    fun x hx => upd_other _ _ _ _ hx
  have hne : ∀ x, s.th x ≠ Thread.idle → x ≠ t := by
    rintro x hx rfl; exact hx hidle
  constructor
  · intro k c1 hk
    simp only [upd_apply] at hk
    by_cases hkk : k = r.key
    · simp only [hkk, if_true, Option.some.injEq] at hk
      subst hk
      exact ⟨r, hkk.symm, Or.inl (upd_same _ _ _)⟩
    · simp only [hkk, if_false] at hk
      obtain ⟨r1, hr1, h1⟩ := hi.reg k c1 hk
      have : c1 ≠ t := hne c1 (by rcases h1 with h | h <;> simp [h])
      exact ⟨r1, hr1, by simpa [hth c1 this] using h1⟩
  · intro c1 hd
    by_cases hc1 : c1 = t
    · subst hc1
      simp at hd
    · simp only [hhp c1 hc1, hth c1 hc1] at hd ⊢
      exact hi.done_ret c1 hd
  · intro t1 r1 c1 hw
    have ht1 : t1 ≠ t := by
      rintro rfl
      simp at hw
    simp only [hth t1 ht1] at hw
    obtain ⟨rc, hrc, ho⟩ := hi.wait_own t1 r1 c1 hw
    have : c1 ≠ t := hne c1 (by rcases ho with h | h | h <;> simp [h])
    refine ⟨rc, hrc, ?_⟩
    simpa [Sys.owns, hth c1 this, hhp c1 this] using ho
  · intro t1 r1 c1 out hr
    have ht1 : t1 ≠ t := by
      rintro rfl
      simp at hr
    simp only [hth t1 ht1] at hr
    obtain ⟨h1, h2, rc, hrc, h3⟩ := hi.ret_own t1 r1 c1 out hr
    have : c1 ≠ t := hne c1 (by simp [h3])
    simp only [hhp c1 this, hth c1 this]
    exact ⟨h1, h2, rc, hrc, h3⟩
  · intro c1 rc h
    have hc1 : c1 ≠ t := by
      rintro rfl
      rcases h with h | ⟨o, h⟩ <;> simp at h
    simp only [hth c1 hc1, hhp c1 hc1] at h ⊢
    exact hi.stored c1 rc h
  · exact hi.nodup
  · intro t1 k
    rw [hi.mem t1 k]
    by_cases ht1 : t1 = t
    · subst ht1
      simp [hidle]
    · simp [hth t1 ht1]

theorem inv_runFn {s : Sys W} (hi : Inv s) (t : Tid) (r : Request W)
    (ho : s.th t = Thread.owner r) :
    Inv { s with
      heap := upd s.heap t
        { s.heap t with val := (r.fn s.world).1.1, err := (r.fn s.world).1.2 }
      th := upd s.th t (Thread.ran r)
      world := (r.fn s.world).2
      invoked := s.invoked ++ [(t, r.key)] } := by
  have hth : ∀ x, x ≠ t → upd s.th t (Thread.ran r) x = s.th x :=
    fun x hx => upd_other _ _ _ _ hx
  have hhp : ∀ x, x ≠ t → upd s.heap t
      { s.heap t with val := (r.fn s.world).1.1, err := (r.fn s.world).1.2 } x = s.heap x :=
    fun x hx => upd_other _ _ _ _ hx
  have hne : ∀ x, (∀ r0, s.th x ≠ Thread.owner r0) → x ≠ t := by
    rintro x hx rfl; exact hx r ho
  have hnot : ∀ k, (t, k) ∉ s.invoked := by
    intro k hk
    obtain ⟨r0, -, h0⟩ := (hi.mem t k).1 hk
    rcases h0 with h | ⟨o, h⟩ <;> simp [ho] at h
  constructor
  · intro k c1 hk
    obtain ⟨r1, hr1, h1⟩ := hi.reg k c1 hk
    by_cases hc1 : c1 = t
    · subst hc1
      have : r1 = r := by
        rcases h1 with h | h <;> simp [ho] at h
        exact h.symm
      subst this
      exact ⟨r1, hr1, Or.inr (upd_same _ _ _)⟩
    · exact ⟨r1, hr1, by simpa [hth c1 hc1] using h1⟩
  · intro c1 hd
    by_cases hc1 : c1 = t
    · subst hc1
      simp only [upd_same] at hd
      obtain ⟨r1, h1⟩ := hi.done_ret c1 hd
      simp [ho] at h1
    · simp only [hhp c1 hc1, hth c1 hc1] at hd ⊢
      exact hi.done_ret c1 hd
  · intro t1 r1 c1 hw
    have ht1 : t1 ≠ t := by
      rintro rfl
      simp at hw
    simp only [hth t1 ht1] at hw
    obtain ⟨rc, hrc, hown⟩ := hi.wait_own t1 r1 c1 hw
    refine ⟨rc, hrc, ?_⟩
    by_cases hc1 : c1 = t
    · subst hc1
      have : rc = r := by
        rcases hown with h | h | h <;> simp [ho] at h
        exact h.symm
      subst this
      exact Or.inr (Or.inl (upd_same _ _ _))
    · simpa [Sys.owns, hth c1 hc1, hhp c1 hc1] using hown
  · intro t1 r1 c1 out hr
    have ht1 : t1 ≠ t := by
      rintro rfl
      simp at hr
    simp only [hth t1 ht1] at hr
    obtain ⟨h1, h2, rc, hrc, h3⟩ := hi.ret_own t1 r1 c1 out hr
    have : c1 ≠ t := hne c1 (by simp [h3])
    simp only [hhp c1 this, hth c1 this]
    exact ⟨h1, h2, rc, hrc, h3⟩
  · intro c1 rc h
    by_cases hc1 : c1 = t
    · subst hc1
      have : rc = r := by
        rcases h with h | ⟨o, h⟩ <;> simp at h
        exact h.symm
      subst this
      exact ⟨s.world, by simp, by simp⟩
    · simp only [hth c1 hc1, hhp c1 hc1] at h ⊢
      exact hi.stored c1 rc h
  · simp only [List.map_append, List.map_cons, List.map_nil]
    rw [List.nodup_append]
    refine ⟨hi.nodup, by simp, ?_⟩
    intro x hx hx1
    simp only [List.mem_singleton] at hx1
    subst hx1
    obtain ⟨e, he, he1⟩ := List.mem_map.1 hx
    apply hnot e.2
    rw [← he1]
    exact he
  · intro t1 k
    by_cases ht1 : t1 = t
    · subst ht1
      simp only [List.mem_append, List.mem_singleton, Prod.mk.injEq, true_and, upd_same,
        Thread.ran.injEq, hnot k, false_or]
      constructor
      · intro h
        exact ⟨r, h.symm, Or.inl rfl⟩
      · rintro ⟨r0, hr0, h0⟩
        rcases h0 with h | ⟨o, h⟩
        · rw [← hr0, h]
        · simp at h
    · simp only [List.mem_append, List.mem_singleton, Prod.mk.injEq, ht1, false_and, or_false,
        hth t1 ht1]
      exact hi.mem t1 k

theorem inv_retire {s : Sys W} (hi : Inv s) (t : Tid) (r : Request W)
    (hr : s.th t = Thread.ran r) :
    Inv { s with
      cm := ⟨⟨if s.cm.g.m r.key = some t then upd s.cm.g.m r.key none else s.cm.g.m⟩⟩
      heap := upd s.heap t { s.heap t with done := true }
      th := upd s.th t (Thread.returned r t (r.ret (s.heap t).val (s.heap t).err)) } := by
  have hth : ∀ x, x ≠ t →
      upd s.th t (Thread.returned r t (r.ret (s.heap t).val (s.heap t).err)) x = s.th x :=
    fun x hx => upd_other _ _ _ _ hx
  have hhp : ∀ x, x ≠ t → upd s.heap t { s.heap t with done := true } x = s.heap x :=
    fun x hx => upd_other _ _ _ _ hx
  have hne : ∀ x, (∀ r0, s.th x ≠ Thread.ran r0) → x ≠ t := by
    rintro x hx rfl; exact hx r hr
  constructor
  · intro k c1 hk
    have hk0 : s.cm.g.m k = some c1 := by
      by_cases hreg : s.cm.g.m r.key = some t
      · simp only [hreg, if_true, upd_apply] at hk
        by_cases hkk : k = r.key
        · simp [hkk] at hk
        · simpa [hkk] using hk
      · simpa [hreg] using hk
    obtain ⟨r1, hr1, h1⟩ := hi.reg k c1 hk0
    by_cases hc1 : c1 = t
    · subst hc1
      have : r1 = r := by
        rcases h1 with h | h <;> simp [hr] at h
        exact h.symm
      subst this
      subst hr1
      simp [hk0] at hk
    · exact ⟨r1, hr1, by simpa [hth c1 hc1] using h1⟩
  · intro c1 hd
    by_cases hc1 : c1 = t
    · subst hc1
      exact ⟨r, by simp⟩
    · simp only [hhp c1 hc1, hth c1 hc1] at hd ⊢
      exact hi.done_ret c1 hd
  · intro t1 r1 c1 hw
    have ht1 : t1 ≠ t := by
      rintro rfl
      simp at hw
    simp only [hth t1 ht1] at hw
    obtain ⟨rc, hrc, hown⟩ := hi.wait_own t1 r1 c1 hw
    refine ⟨rc, hrc, ?_⟩
    by_cases hc1 : c1 = t
    · subst hc1
      have : rc = r := by
        rcases hown with h | h | h <;> simp [hr] at h
        exact h.symm
      subst this
      exact Or.inr (Or.inr (by simp))
    · simpa [Sys.owns, hth c1 hc1, hhp c1 hc1] using hown
  · intro t1 r1 c1 out hret
    by_cases ht1 : t1 = t
    · subst ht1
      simp only [upd_same, Thread.returned.injEq] at hret
      obtain ⟨rfl, rfl, rfl⟩ := hret
      exact ⟨by simp, by simp, r, rfl, by simp⟩
    · simp only [hth t1 ht1] at hret
      obtain ⟨h1, h2, rc, hrc, h3⟩ := hi.ret_own t1 r1 c1 out hret
      have : c1 ≠ t := hne c1 (by simp [h3])
      simp only [hhp c1 this, hth c1 this]
      exact ⟨h1, h2, rc, hrc, h3⟩
  · intro c1 rc h
    by_cases hc1 : c1 = t
    · subst hc1
      have : rc = r := by
        rcases h with h | ⟨o, h⟩ <;> simp at h
        exact h.1.symm
      subst this
      simpa using hi.stored c1 rc (Or.inl hr)
    · simp only [hth c1 hc1, hhp c1 hc1] at h ⊢
      exact hi.stored c1 rc h
  · exact hi.nodup
  · intro t1 k
    rw [hi.mem t1 k]
    by_cases ht1 : t1 = t
    · subst ht1
      simp [hr]
    · simp [hth t1 ht1]

theorem inv_wake {s : Sys W} (hi : Inv s) (t : Tid) (r : Request W) (c : Tid)
    (hw : s.th t = Thread.waiting r c) (hd : (s.heap c).done = true) :
    Inv { s with
      th := upd s.th t (Thread.returned r c (r.ret (s.heap c).val (s.heap c).err)) } := by
  have hth : ∀ x, x ≠ t →
      upd s.th t (Thread.returned r c (r.ret (s.heap c).val (s.heap c).err)) x = s.th x :=
    fun x hx => upd_other _ _ _ _ hx
  have hne : ∀ x, (∀ r0 c0, s.th x ≠ Thread.waiting r0 c0) → x ≠ t := by
    rintro x hx rfl; exact hx r c hw
  obtain ⟨rc0, hk0, hown0⟩ := hi.wait_own t r c hw
  obtain ⟨rd, hrd⟩ := hi.done_ret c hd
  have hct : c ≠ t := hne c (by simp [hrd])
  constructor
  · intro k c1 hk
    obtain ⟨r1, hr1, h1⟩ := hi.reg k c1 hk
    have : c1 ≠ t := hne c1 (by rcases h1 with h | h <;> simp [h])
    exact ⟨r1, hr1, by simpa [hth c1 this] using h1⟩
  · intro c1 hd1
    obtain ⟨r1, h1⟩ := hi.done_ret c1 hd1
    have : c1 ≠ t := hne c1 (by simp [h1])
    exact ⟨r1, by simpa [hth c1 this] using h1⟩
  · intro t1 r1 c1 hw1
    have ht1 : t1 ≠ t := by
      rintro rfl
      simp at hw1
    simp only [hth t1 ht1] at hw1
    obtain ⟨rc, hrc, hown⟩ := hi.wait_own t1 r1 c1 hw1
    have : c1 ≠ t := hne c1 (by rcases hown with h | h | h <;> simp [h])
    exact ⟨rc, hrc, by simpa [Sys.owns, hth c1 this] using hown⟩
  · intro t1 r1 c1 out hret
    by_cases ht1 : t1 = t
    · subst ht1
      simp only [upd_same, Thread.returned.injEq] at hret
      obtain ⟨rfl, rfl, rfl⟩ := hret
      refine ⟨rfl, hd, rc0, hk0, ?_⟩
      show upd s.th t1 _ c = _
      rw [hth c hct]
      rcases hown0 with h | h | h
      · simp [hrd] at h
      · simp [hrd] at h
      · exact h
    · simp only [hth t1 ht1] at hret
      obtain ⟨h1, h2, rc, hrc, h3⟩ := hi.ret_own t1 r1 c1 out hret
      have : c1 ≠ t := hne c1 (by simp [h3])
      exact ⟨h1, h2, rc, hrc, by simpa [hth c1 this] using h3⟩
  · intro c1 rc h
    by_cases hc1 : c1 = t
    · subst hc1
      rcases h with h | ⟨o, h⟩
      · simp at h
      · simp only [upd_same, Thread.returned.injEq] at h
        exact absurd h.2.1 hct
    · simp only [hth c1 hc1] at h
      exact hi.stored c1 rc h
  · exact hi.nodup
  · intro t1 k
    rw [hi.mem t1 k]
    by_cases ht1 : t1 = t
    · subst ht1
      simp [hw, hct]
    · simp [hth t1 ht1]

theorem step_inv {s s1 : Sys W} {a : Action W} (hi : Inv s) (h : step s a = some s1) :
    Inv s1 := by
  cases step_cases h with
  | join t r c ha hidle hm hs => subst hs; exact inv_join hi t r c hidle hm
  | own t r ha hidle hm hs => subst hs; exact inv_own hi t r hidle
  | runFn t r ha ho hs => subst hs; exact inv_runFn hi t r ho
  | retire t r ha hr hs => subst hs; exact inv_retire hi t r hr
  | wake t r c ha hw hd hs => subst hs; exact inv_wake hi t r c hw hd

theorem run_cons {s s2 : Sys W} {a : Action W} {l : List (Action W)}
    (h : run s (a :: l) = some s2) : ∃ s1, step s a = some s1 ∧ run s1 l = some s2 := by
  simp only [run] at h
  cases hs : step s a with
  | none => simp [hs] at h
  | some s1 => exact ⟨s1, rfl, by simpa [hs] using h⟩

theorem run_append {s s2 : Sys W} {l1 l2 : List (Action W)}
    (h : run s (l1 ++ l2) = some s2) : ∃ s1, run s l1 = some s1 ∧ run s1 l2 = some s2 := by
  induction l1 generalizing s with
  | nil => exact ⟨s, rfl, h⟩
  | cons a l ih =>
    obtain ⟨s1, h1, h2⟩ := run_cons h
    obtain ⟨s3, h3, h4⟩ := ih h2
    exact ⟨s3, by simp [run, h1, h3], h4⟩

theorem run_append_of {s s1 s2 : Sys W} {l1 l2 : List (Action W)}
    (h1 : run s l1 = some s1) (h2 : run s1 l2 = some s2) : run s (l1 ++ l2) = some s2 := by
  induction l1 generalizing s with
  | nil =>
    simp only [run, Option.some.injEq] at h1
    subst h1
    exact h2
  | cons a l ih =>
    obtain ⟨s3, h3, h4⟩ := run_cons h1
    simp [run, h3, ih h4]

theorem run_inv {s s1 : Sys W} {l : List (Action W)} (hi : Inv s) (h : run s l = some s1) :
    Inv s1 := by
  induction l generalizing s with
  | nil =>
    simp only [run, Option.some.injEq] at h
    exact h ▸ hi
  | cons a l ih =>
    obtain ⟨s2, h2, h3⟩ := run_cons h
    exact ih (step_inv hi h2) h3

theorem Reachable.inv {s : Sys W} (h : Reachable s) : Inv s := by
  obtain ⟨w, l, hl⟩ := h
  exact run_inv (inv_init w) hl

theorem Reachable.run {s s1 : Sys W} {l : List (Action W)} (h : Reachable s)
    (hl : run s l = some s1) : Reachable s1 := by
  obtain ⟨w, l0, hl0⟩ := h
  exact ⟨w, l0 ++ l, run_append_of hl0 hl⟩

theorem Reachable.step {s s1 : Sys W} {a : Action W} (h : Reachable s)
    (hs : step s a = some s1) : Reachable s1 :=
  h.run (l := [a]) (by simp [guardian.run, hs])

theorem Reachable.init (w : W) : Reachable (Sys.init w) := ⟨w, [], rfl⟩

theorem Reachable.after {s : Sys W} (h : Reachable s) (l : List (Action W)) :
    Reachable (s.after l) := by
  unfold Sys.after
  cases hl : guardian.run s l with
  | none => exact h
  | some s1 => exact h.run hl

/-! ## What a step leaves alone -/

theorem step_th_other {s s1 : Sys W} {a : Action W} (h : step s a = some s1) (t : Tid)
    (ht : a.tid ≠ t) : s1.th t = s.th t := by
  cases step_cases h with
  | join t0 r c ha hidle hm hs =>
    subst hs; subst ha; exact upd_other _ _ _ _ (Ne.symm ht)
  | own t0 r ha hidle hm hs =>
    subst hs; subst ha; exact upd_other _ _ _ _ (Ne.symm ht)
  | runFn t0 r ha ho hs =>
    subst hs; subst ha; exact upd_other _ _ _ _ (Ne.symm ht)
  | retire t0 r ha hr hs =>
    subst hs; subst ha; exact upd_other _ _ _ _ (Ne.symm ht)
  | wake t0 r c ha hw hd hs =>
    subst hs; subst ha; exact upd_other _ _ _ _ (Ne.symm ht)

theorem step_outcome_other {s s1 : Sys W} {a : Action W} (h : step s a = some s1) (c : Tid)
    (hc : a.tid ≠ c) :
    (s1.heap c).val = (s.heap c).val ∧ (s1.heap c).err = (s.heap c).err ∧
      (s1.heap c).done = (s.heap c).done := by
  cases step_cases h with
  | join t0 r c0 ha hidle hm hs =>
    subst hs
    by_cases hx : c = c0 <;> simp [upd_apply, hx]
  | own t0 r ha hidle hm hs =>
    subst hs; subst ha
    have hc1 : c ≠ t0 := fun e => hc e.symm
    simp [upd_apply, hc1]
  | runFn t0 r ha ho hs =>
    subst hs; subst ha
    have hc1 : c ≠ t0 := fun e => hc e.symm
    simp [upd_apply, hc1]
  | retire t0 r ha hr hs =>
    subst hs; subst ha
    have hc1 : c ≠ t0 := fun e => hc e.symm
    simp [upd_apply, hc1]
  | wake t0 r c0 ha hw hd hs =>
    subst hs
    exact ⟨rfl, rfl, rfl⟩

theorem step_invoked_other {s s1 : Sys W} {a : Action W} (h : step s a = some s1) (t : Tid)
    (ht : a.tid ≠ t) :
    s1.invoked.filter (fun e => decide (e.1 = t)) =
      s.invoked.filter (fun e => decide (e.1 = t)) := by
  cases step_cases h with
  | join t0 r c0 ha hidle hm hs => subst hs; rfl
  | own t0 r ha hidle hm hs => subst hs; rfl
  | runFn t0 r ha ho hs =>
    subst hs; subst ha
    have : t0 ≠ t := ht
    simp [List.filter_append, List.filter_cons, this]
  | retire t0 r ha hr hs => subst hs; rfl
  | wake t0 r c0 ha hw hd hs => subst hs; rfl

theorem run_th_other {s s1 : Sys W} {l : List (Action W)} (h : run s l = some s1) (t : Tid)
    (ht : ∀ a ∈ l, a.tid ≠ t) : s1.th t = s.th t := by
  induction l generalizing s with
  | nil =>
    simp only [run, Option.some.injEq] at h
    rw [h]
  | cons a l ih =>
    obtain ⟨s2, h2, h3⟩ := run_cons h
    rw [ih h3 (fun b hb => ht b (List.mem_cons_of_mem _ hb)),
      step_th_other h2 t (ht a (List.mem_cons_self _ _))]

theorem run_outcome_other {s s1 : Sys W} {l : List (Action W)} (h : run s l = some s1)
    (c : Tid) (hc : ∀ a ∈ l, a.tid ≠ c) :
    (s1.heap c).val = (s.heap c).val ∧ (s1.heap c).err = (s.heap c).err ∧
      (s1.heap c).done = (s.heap c).done := by
  induction l generalizing s with
  | nil =>
    simp only [run, Option.some.injEq] at h
    rw [h]
    exact ⟨rfl, rfl, rfl⟩
  | cons a l ih =>
    obtain ⟨s2, h2, h3⟩ := run_cons h
    obtain ⟨i1, i2, i3⟩ := ih h3 (fun b hb => hc b (List.mem_cons_of_mem _ hb))
    obtain ⟨j1, j2, j3⟩ := step_outcome_other h2 c (hc a (List.mem_cons_self _ _))
    exact ⟨i1.trans j1, i2.trans j2, i3.trans j3⟩

/-- A call stays in the registry as long as its owner has not retired it. -/
theorem step_registered {s s1 : Sys W} {a : Action W} (h : step s a = some s1) (k : String)
    (c : Tid) (hk : s.cm.g.m k = some c) (ha : a ≠ Action.retire c) :
    s1.cm.g.m k = some c := by
  cases step_cases h with
  | join t0 r c0 ha0 hidle hm hs => subst hs; exact hk
  | own t0 r ha0 hidle hm hs =>
    subst hs
    have : k ≠ r.key := by
      rintro rfl
      simp [hm] at hk
    simpa [upd_apply, this] using hk
  | runFn t0 r ha0 ho hs => subst hs; exact hk
  | retire t0 r ha0 hr hs =>
    subst hs
    by_cases hreg : s.cm.g.m r.key = some t0
    · have : k ≠ r.key := by
        rintro rfl
        rw [hk] at hreg
        simp only [Option.some.injEq] at hreg
        subst hreg
        exact ha ha0
      simpa [hreg, upd_apply, this] using hk
    · simpa [hreg] using hk
  | wake t0 r c0 ha0 hw hd hs => subst hs; exact hk

/-- A key stays out of the registry as long as no invocation arrives with it. -/
theorem step_unregistered {s s1 : Sys W} {a : Action W} (h : step s a = some s1)
    (k : String) (hk : s.cm.g.m k = none) (ha : ∀ t r, a = Action.arrive t r → r.key ≠ k) :
    s1.cm.g.m k = none := by
  cases step_cases h with
  | join t0 r c0 ha0 hidle hm hs => subst hs; exact hk
  | own t0 r ha0 hidle hm hs =>
    subst hs
    have : k ≠ r.key := Ne.symm (ha t0 r ha0)
    simpa [upd_apply, this] using hk
  | runFn t0 r ha0 ho hs => subst hs; exact hk
  | retire t0 r ha0 hr hs =>
    subst hs
    by_cases hreg : s.cm.g.m r.key = some t0
    · by_cases hkk : k = r.key
      · simp [hreg, upd_apply, hkk]
      · simpa [hreg, upd_apply, hkk] using hk
    · simpa [hreg] using hk
  | wake t0 r c0 ha0 hw hd hs => subst hs; exact hk

theorem run_unregistered {s s1 : Sys W} {l : List (Action W)} (h : run s l = some s1)
    (k : String) (hk : s.cm.g.m k = none)
    (ha : ∀ a ∈ l, ∀ t r, a = Action.arrive t r → r.key ≠ k) : s1.cm.g.m k = none := by
  induction l generalizing s with
  | nil =>
    simp only [run, Option.some.injEq] at h
    rw [← h]; exact hk
  | cons a l ih =>
    obtain ⟨s2, h2, h3⟩ := run_cons h
    exact ih h3 (step_unregistered h2 k hk (ha a (List.mem_cons_self _ _)))
      (fun b hb => ha b (List.mem_cons_of_mem _ hb))

/-- Once an invocation has returned, nothing changes what it returned. -/
theorem step_returned {s s1 : Sys W} {a : Action W} (h : step s a = some s1) (t : Tid)
    (r : Request W) (c : Tid) (out : Ret) (ht : s.th t = Thread.returned r c out) :
    s1.th t = Thread.returned r c out := by
  by_cases hat : a.tid = t
  · cases step_cases h with
    | join t0 r0 c0 ha hidle hm hs => subst ha; simp [Action.tid] at hat; simp [hat, ht] at hidle
    | own t0 r0 ha hidle hm hs => subst ha; simp [Action.tid] at hat; simp [hat, ht] at hidle
    | runFn t0 r0 ha ho hs => subst ha; simp [Action.tid] at hat; simp [hat, ht] at ho
    | retire t0 r0 ha hr hs => subst ha; simp [Action.tid] at hat; simp [hat, ht] at hr
    | wake t0 r0 c0 ha hw hd hs => subst ha; simp [Action.tid] at hat; simp [hat, ht] at hw
  · rw [step_th_other h t hat, ht]

theorem run_returned {s s1 : Sys W} {l : List (Action W)} (h : run s l = some s1) (t : Tid)
    (r : Request W) (c : Tid) (out : Ret) (ht : s.th t = Thread.returned r c out) :
    s1.th t = Thread.returned r c out := by
  induction l generalizing s with
  | nil =>
    simp only [run, Option.some.injEq] at h
    rw [← h]; exact ht
  | cons a l ih =>
    obtain ⟨s2, h2, h3⟩ := run_cons h
    exact ih h3 (step_returned h2 t r c out ht)

/-- In a reachable state an owner that has returned is on record exactly once, with the
key of its request. -/
theorem invoked_of_returned {s : Sys W} (hi : Inv s) (t : Tid) (r : Request W) (out : Ret)
    (ht : s.th t = Thread.returned r t out) :
    s.invoked.filter (fun e => decide (e.1 = t)) = [(t, r.key)] :=
  filter_fst_eq_singleton _ _ _ hi.nodup ((hi.mem t r.key).2 ⟨r, rfl, Or.inr ⟨out, ht⟩⟩)

/-- In a reachable state an invocation that adopted the call of another one is not on
record. -/
theorem runs_of_follower {s : Sys W} (hi : Inv s) (t : Tid) (r : Request W) (c : Tid)
    (hc : c ≠ t) (ht : s.th t = Thread.waiting r c ∨ ∃ out, s.th t = Thread.returned r c out) :
    s.runs t = 0 := by
  unfold Sys.runs
  rw [List.count_eq_zero]
  intro hmem
  obtain ⟨e, he, he1⟩ := List.mem_map.1 hmem
  have : (t, e.2) ∈ s.invoked := by rw [← he1]; exact he
  obtain ⟨r0, -, h0⟩ := (hi.mem t e.2).1 this
  rcases ht with ht | ⟨o, ht⟩
  · rcases h0 with h | ⟨o1, h⟩ <;> simp [ht] at h
  · rcases h0 with h | ⟨o1, h⟩
    · simp [ht] at h
    · simp only [ht, Thread.returned.injEq] at h
      exact hc h.2.1

theorem run_registered {s s1 : Sys W} {l : List (Action W)} (h : run s l = some s1)
    (k : String) (c : Tid) (hk : s.cm.g.m k = some c) (ha : ∀ a ∈ l, a ≠ Action.retire c) :
    s1.cm.g.m k = some c := by
  induction l generalizing s with
  | nil =>
    simp only [run, Option.some.injEq] at h
    rw [← h]; exact hk
  | cons a l ih =>
    obtain ⟨s2, h2, h3⟩ := run_cons h
    exact ih h3 (step_registered h2 k c hk (ha a (List.mem_cons_self _ _)))
      (fun b hb => ha b (List.mem_cons_of_mem _ hb))

theorem ne_retire_of_tid {a : Action W} {t : Tid} (h : a.tid ≠ t) : a ≠ Action.retire t := by
  rintro rfl
  exact h rfl

/-! ## The life of an owner -/

/-- An invocation that finds no call registered for its key is never blocked: it
registers a call, runs its own closure once, retires the call and returns what the method
makes of the closure's result, whatever other invocations do in between. -/
theorem owner_life {s : Sys W} (hs : Reachable s) (t : Tid) (r : Request W)
    (hidle : s.th t = Thread.idle) (hfree : s.cm.g.m r.key = none) :
    ∃ s1, step s (Action.arrive t r) = some s1 ∧ s1.world = s.world ∧
      s1.th t = Thread.owner r ∧ s1.cm.g.m r.key = some t ∧
      ∀ l1 sa, (∀ a ∈ l1, a.tid ≠ t) → run s1 l1 = some sa →
        ∃ sb, step sa (Action.runFn t) = some sb ∧ sb.world = (r.fn sa.world).2 ∧
          ∀ l2 sc, (∀ a ∈ l2, a.tid ≠ t) → run sb l2 = some sc →
            ∃ s2, step sc (Action.retire t) = some s2 ∧ s2.world = sc.world ∧
              s2.cm.g.m r.key = none ∧
              ∀ l3 s3, run s2 l3 = some s3 →
                s3.th t = Thread.returned r t
                  (r.ret (r.fn sa.world).1.1 (r.fn sa.world).1.2) ∧
                s3.invoked.filter (fun e => decide (e.1 = t)) = [(t, r.key)] := by
  refine ⟨_, step_arrive_own s t r hidle hfree, rfl, upd_same _ _ _, upd_same _ _ _, ?_⟩
  have hs1 := hs.step (step_arrive_own s t r hidle hfree)
  generalize hs1def : ({ s with
      cm := ⟨⟨upd s.cm.g.m r.key (some t)⟩⟩
      heap := upd s.heap t ⟨Iface.nil, none, 0, false⟩
      th := upd s.th t (Thread.owner r) } : Sys W) = s1 at hs1 ⊢
  have hth1 : s1.th t = Thread.owner r := by rw [← hs1def]; exact upd_same _ _ _
  have hm1 : s1.cm.g.m r.key = some t := by rw [← hs1def]; exact upd_same _ _ _
  intro l1 sa hl1 hrun1
  have htha : sa.th t = Thread.owner r := by rw [run_th_other hrun1 t hl1, hth1]
  have hma : sa.cm.g.m r.key = some t :=
    run_registered hrun1 _ _ hm1 (fun a ha => ne_retire_of_tid (hl1 a ha))
  refine ⟨_, step_runFn sa t r htha, rfl, ?_⟩
  have hsb := (hs1.run hrun1).step (step_runFn sa t r htha)
  generalize hsbdef : ({ sa with
      heap := upd sa.heap t
        { sa.heap t with val := (r.fn sa.world).1.1, err := (r.fn sa.world).1.2 }
      th := upd sa.th t (Thread.ran r)
      world := (r.fn sa.world).2
      invoked := sa.invoked ++ [(t, r.key)] } : Sys W) = sb at hsb ⊢
  have hthb : sb.th t = Thread.ran r := by rw [← hsbdef]; exact upd_same _ _ _
  have hmb : sb.cm.g.m r.key = some t := by rw [← hsbdef]; exact hma
  have hvb : (sb.heap t).val = (r.fn sa.world).1.1 := by rw [← hsbdef]; simp
  have heb : (sb.heap t).err = (r.fn sa.world).1.2 := by rw [← hsbdef]; simp
  intro l2 sc hl2 hrun2
  have hthc : sc.th t = Thread.ran r := by rw [run_th_other hrun2 t hl2, hthb]
  have hmc : sc.cm.g.m r.key = some t :=
    run_registered hrun2 _ _ hmb (fun a ha => ne_retire_of_tid (hl2 a ha))
  obtain ⟨hvc, hec, -⟩ := run_outcome_other hrun2 t hl2
  refine ⟨_, step_retire sc t r hthc, rfl, by simp [hmc], ?_⟩
  have hs2 := (hsb.run hrun2).step (step_retire sc t r hthc)
  intro l3 s3 hrun3
  have hth3 := run_returned hrun3 t r t (r.ret (sc.heap t).val (sc.heap t).err)
    (upd_same _ _ _)
  rw [hvc, hec, hvb, heb] at hth3
  exact ⟨hth3, invoked_of_returned (hs2.run hrun3).inv t r _ hth3⟩

/-! ## The life of a follower -/

/-- A follower of `c` stays one: it waits, or has returned the outcome of `c`. -/
theorem step_follows {s s1 : Sys W} {a : Action W} (h : step s a = some s1) (t : Tid)
    (r : Request W) (c : Tid)
    (ht : s.th t = Thread.waiting r c ∨ ∃ out, s.th t = Thread.returned r c out) :
    s1.th t = Thread.waiting r c ∨ ∃ out, s1.th t = Thread.returned r c out := by
  rcases ht with ht | ⟨out, ht⟩
  · by_cases hat : a.tid = t
    · cases step_cases h with
      | join t0 r0 c0 ha hidle hm hs =>
        subst ha; simp [Action.tid] at hat; simp [hat, ht] at hidle
      | own t0 r0 ha hidle hm hs =>
        subst ha; simp [Action.tid] at hat; simp [hat, ht] at hidle
      | runFn t0 r0 ha ho hs => subst ha; simp [Action.tid] at hat; simp [hat, ht] at ho
      | retire t0 r0 ha hr hs => subst ha; simp [Action.tid] at hat; simp [hat, ht] at hr
      | wake t0 r0 c0 ha hw hd hs =>
        subst ha
        simp only [Action.tid] at hat
        subst hat
        rw [ht] at hw
        simp only [Thread.waiting.injEq] at hw
        obtain ⟨rfl, rfl⟩ := hw
        subst hs
        exact Or.inr ⟨_, upd_same _ _ _⟩
    · exact Or.inl (by rw [step_th_other h t hat, ht])
  · exact Or.inr ⟨out, step_returned h t r c out ht⟩

theorem run_follows {s s1 : Sys W} {l : List (Action W)} (h : run s l = some s1) (t : Tid)
    (r : Request W) (c : Tid)
    (ht : s.th t = Thread.waiting r c ∨ ∃ out, s.th t = Thread.returned r c out) :
    s1.th t = Thread.waiting r c ∨ ∃ out, s1.th t = Thread.returned r c out := by
  induction l generalizing s with
  | nil =>
    simp only [run, Option.some.injEq] at h
    rw [← h]; exact ht
  | cons a l ih =>
    obtain ⟨s2, h2, h3⟩ := run_cons h
    exact ih h3 (step_follows h2 t r c ht)

/-- An owner keeps its request through its three program points. -/
theorem step_owned {s s1 : Sys W} {a : Action W} (h : step s a = some s1) (c : Tid)
    (rc : Request W)
    (hc : s.th c = Thread.owner rc ∨ s.th c = Thread.ran rc ∨
      ∃ out, s.th c = Thread.returned rc c out) :
    s1.th c = Thread.owner rc ∨ s1.th c = Thread.ran rc ∨
      ∃ out, s1.th c = Thread.returned rc c out := by
  by_cases hat : a.tid = c
  · cases step_cases h with
    | join t0 r0 c0 ha hidle hm hs =>
      subst ha; simp only [Action.tid] at hat; subst hat
      rcases hc with hc | hc | ⟨o, hc⟩ <;> simp [hc] at hidle
    | own t0 r0 ha hidle hm hs =>
      subst ha; simp only [Action.tid] at hat; subst hat
      rcases hc with hc | hc | ⟨o, hc⟩ <;> simp [hc] at hidle
    | runFn t0 r0 ha ho hs =>
      subst ha; simp only [Action.tid] at hat; subst hat
      rcases hc with hc | hc | ⟨o, hc⟩
      · rw [hc] at ho
        simp only [Thread.owner.injEq] at ho
        subst ho; subst hs
        exact Or.inr (Or.inl (upd_same _ _ _))
      · simp [hc] at ho
      · simp [hc] at ho
    | retire t0 r0 ha hr hs =>
      subst ha; simp only [Action.tid] at hat; subst hat
      rcases hc with hc | hc | ⟨o, hc⟩
      · simp [hc] at hr
      · rw [hc] at hr
        simp only [Thread.ran.injEq] at hr
        subst hr; subst hs
        exact Or.inr (Or.inr ⟨_, upd_same _ _ _⟩)
      · simp [hc] at hr
    | wake t0 r0 c0 ha hw hd hs =>
      subst ha; simp only [Action.tid] at hat; subst hat
      rcases hc with hc | hc | ⟨o, hc⟩ <;> simp [hc] at hw
  · rw [step_th_other h c hat]; exact hc

theorem run_owned {s s1 : Sys W} {l : List (Action W)} (h : run s l = some s1) (c : Tid)
    (rc : Request W)
    (hc : s.th c = Thread.owner rc ∨ s.th c = Thread.ran rc ∨
      ∃ out, s.th c = Thread.returned rc c out) :
    s1.th c = Thread.owner rc ∨ s1.th c = Thread.ran rc ∨
      ∃ out, s1.th c = Thread.returned rc c out := by
  induction l generalizing s with
  | nil =>
    simp only [run, Option.some.injEq] at h
    rw [← h]; exact hc
  | cons a l ih =>
    obtain ⟨s2, h2, h3⟩ := run_cons h
    exact ih h3 (step_owned h2 c rc hc)

/-- In a reachable state a follower of the call of `c`, owned with request `rc`, either
still waits, and then can return as soon as `c` has, or has returned what its own method
makes of the outcome stored in the call, of which the owner returned its own reading; the
follower's action is on no record. -/
theorem follower_state {s : Sys W} (hs : Reachable s) (t c : Tid) (r rc : Request W)
    (hct : c ≠ t)
    (ht : s.th t = Thread.waiting r c ∨ ∃ out, s.th t = Thread.returned r c out)
    (hc : s.th c = Thread.owner rc ∨ s.th c = Thread.ran rc ∨
      ∃ out, s.th c = Thread.returned rc c out) :
    s.runs t = 0 ∧ s.adopted t = some c ∧
    (s.result t = none ∨
      (s.result t = some (r.ret (s.heap c).val (s.heap c).err) ∧
        s.result c = some (rc.ret (s.heap c).val (s.heap c).err))) ∧
    (s.result t = none → (s.result c).isSome →
      ∃ s1, step s (Action.wake t) = some s1 ∧ s1.world = s.world ∧
        (s1.result t).isSome) ∧
    (∀ out, s.result c = some out → out = rc.ret (s.heap c).val (s.heap c).err) ∧
    ((s.result c).isSome →
      ∃ w, (s.heap c).val = (rc.fn w).1.1 ∧ (s.heap c).err = (rc.fn w).1.2) := by
  have hi := hs.inv
  have hcres : ∀ out, s.result c = some out →
      (s.heap c).done = true ∧ out = rc.ret (s.heap c).val (s.heap c).err := by
    intro out hout
    rcases hc with h | h | ⟨o, h⟩
    · simp [Sys.result, h] at hout
    · simp [Sys.result, h] at hout
    · obtain ⟨h1, h2, -⟩ := hi.ret_own c rc c o h
      simp only [Sys.result, h, Option.some.injEq] at hout
      exact ⟨h2, hout ▸ h1⟩
  refine ⟨runs_of_follower hi t r c hct ht, ?_, ?_, ?_, fun out h => (hcres out h).2, ?_⟩
  · rcases ht with h | ⟨o, h⟩ <;> simp [Sys.adopted, h]
  · rcases ht with h | ⟨o, h⟩
    · exact Or.inl (by simp [Sys.result, h])
    · obtain ⟨h1, -, rc1, -, h3⟩ := hi.ret_own t r c o h
      refine Or.inr ⟨by simp [Sys.result, h, h1], ?_⟩
      have : rc1 = rc := by
        rcases hc with h0 | h0 | ⟨o0, h0⟩ <;> simp [h3] at h0
        exact h0.1
      subst this
      simp [Sys.result, h3]
  · intro hnone hsome
    rcases ht with h | ⟨o, h⟩
    · obtain ⟨out, hout⟩ := Option.isSome_iff_exists.1 hsome
      have hd := (hcres out hout).1
      exact ⟨_, step_wake s t r c h hd, rfl, by simp [Sys.result]⟩
    · simp [Sys.result, h] at hnone
  · intro hsome
    obtain ⟨out, hout⟩ := Option.isSome_iff_exists.1 hsome
    rcases hc with h | h | ⟨o, h⟩
    · simp [Sys.result, h] at hout
    · simp [Sys.result, h] at hout
    · exact hi.stored c rc (Or.inr ⟨o, h⟩)

/-- An invocation that finds the call of `c` registered for its key becomes a follower
of `c` without touching the world, and stays one in every later state. -/
theorem follower_life {s : Sys W} (hs : Reachable s) (t c : Tid) (r rc : Request W)
    (hidle : s.th t = Thread.idle) (hreg : s.cm.g.m r.key = some c)
    (hown : s.th c = Thread.owner rc ∨ s.th c = Thread.ran rc) :
    c ≠ t ∧ ∃ s1, step s (Action.arrive t r) = some s1 ∧ s1.world = s.world ∧
      ∀ l s2, run s1 l = some s2 →
        Reachable s2 ∧
        (s2.th t = Thread.waiting r c ∨ ∃ out, s2.th t = Thread.returned r c out) ∧
        (s2.th c = Thread.owner rc ∨ s2.th c = Thread.ran rc ∨
          ∃ out, s2.th c = Thread.returned rc c out) := by
  have hct : c ≠ t := by
    rintro rfl
    rcases hown with h | h <;> simp [hidle] at h
  refine ⟨hct, _, step_arrive_join s t r c hidle hreg, rfl, fun l s2 hl => ?_⟩
  have hs1 := hs.step (step_arrive_join s t r c hidle hreg)
  refine ⟨hs1.run hl, run_follows hl t r c (Or.inl (upd_same _ _ _)),
    run_owned hl c rc ?_⟩
  show upd s.th t _ c = _ ∨ upd s.th t _ c = _ ∨ ∃ out, upd s.th t _ c = _
  rw [upd_other _ _ _ _ hct]
  rcases hown with h | h
  · exact Or.inl h
  · exact Or.inr (Or.inl h)

theorem ret_eq_of_isGet (r rc : Request W) (h : r.isGet = rc.isGet) (v : Iface)
    (e : GoErr) : r.ret v e = rc.ret v e := by
  cases r <;> cases rc <;> simp [Request.isGet] at h <;> rfl

/-- While the call of `c` stays registered for `k`, every invocation that arrives with
`k` joins it. -/
theorem run_joins {s s1 : Sys W} {l : List (Action W)} (h : run s l = some s1) (k : String)
    (c : Tid) (hk : s.cm.g.m k = some c) (hl : ∀ a ∈ l, a ≠ Action.retire c) :
    s1.cm.g.m k = some c ∧ ∀ t r, Action.arrive t r ∈ l → r.key = k →
      (s1.th t = Thread.waiting r c ∨ ∃ out, s1.th t = Thread.returned r c out) := by
  induction l generalizing s with
  | nil =>
    simp only [run, Option.some.injEq] at h
    subst h
    exact ⟨hk, fun t r hmem => by simp at hmem⟩
  | cons a l ih =>
    obtain ⟨s2, h2, h3⟩ := run_cons h
    have hk2 := step_registered h2 k c hk (hl a (List.mem_cons_self _ _))
    obtain ⟨i1, i2⟩ := ih h3 hk2 (fun b hb => hl b (List.mem_cons_of_mem _ hb))
    refine ⟨i1, fun t r hmem hrk => ?_⟩
    rcases List.mem_cons.1 hmem with hhead | htail
    · subst hhead
      apply run_follows h3
      cases step_cases h2 with
      | join t0 r0 c0 ha hidle hm hs =>
        simp only [Action.arrive.injEq] at ha
        obtain ⟨rfl, rfl⟩ := ha
        rw [hrk, hk] at hm
        simp only [Option.some.injEq] at hm
        subst hm; subst hs
        exact Or.inl (upd_same _ _ _)
      | own t0 r0 ha hidle hm hs =>
        simp only [Action.arrive.injEq] at ha
        obtain ⟨rfl, rfl⟩ := ha
        rw [hrk, hk] at hm
        simp at hm
      | runFn t0 r0 ha ho hs => simp at ha
      | retire t0 r0 ha hr hs => simp at ha
      | wake t0 r0 c0 ha hw hd hs => simp at ha
    · exact i2 t r htail hrk

/-- Only a step of an owner that is about to run its closure can change the world. -/
theorem step_world_same {s s1 : Sys W} {a : Action W} (h : step s a = some s1)
    (hno : ∀ r, s.th a.tid ≠ Thread.owner r) : s1.world = s.world := by
  cases step_cases h with
  | join t0 r0 c0 ha hidle hm hs => subst hs; rfl
  | own t0 r0 ha hidle hm hs => subst hs; rfl
  | runFn t0 r0 ha ho hs => subst ha; exact absurd ho (hno r0)
  | retire t0 r0 ha hr hs => subst hs; rfl
  | wake t0 r0 c0 ha hw hd hs => subst hs; rfl

theorem hasRun_inj {s : Sys W} {c : Tid} {r1 r2 : Request W} (h1 : s.hasRun c r1)
    (h2 : s.hasRun c r2) : r1 = r2 := by
  rcases h1 with h1 | ⟨o1, h1⟩ <;> rcases h2 with h2 | ⟨o2, h2⟩ <;> rw [h1] at h2 <;>
    simp at h2
  · exact h2
  · exact h2.1

/-- Once the closure has run, the outcome stored in the call stays as it is. -/
theorem step_hasRun {s s1 : Sys W} {a : Action W} (h : step s a = some s1) (c : Tid)
    (rc : Request W) (hc : s.hasRun c rc) :
    s1.hasRun c rc ∧ (s1.heap c).val = (s.heap c).val ∧
      (s1.heap c).err = (s.heap c).err := by
  by_cases hat : a.tid = c
  · cases step_cases h with
    | join t0 r0 c0 ha hidle hm hs =>
      subst ha; simp only [Action.tid] at hat; subst hat
      rcases hc with hc | ⟨o, hc⟩ <;> simp [hc] at hidle
    | own t0 r0 ha hidle hm hs =>
      subst ha; simp only [Action.tid] at hat; subst hat
      rcases hc with hc | ⟨o, hc⟩ <;> simp [hc] at hidle
    | runFn t0 r0 ha ho hs =>
      subst ha; simp only [Action.tid] at hat; subst hat
      rcases hc with hc | ⟨o, hc⟩ <;> simp [hc] at ho
    | retire t0 r0 ha hr hs =>
      subst ha; simp only [Action.tid] at hat; subst hat
      rcases hc with hc | ⟨o, hc⟩
      · rw [hc] at hr
        simp only [Thread.ran.injEq] at hr
        subst hr; subst hs
        exact ⟨Or.inr ⟨_, upd_same _ _ _⟩, by simp, by simp⟩
      · simp [hc] at hr
    | wake t0 r0 c0 ha hw hd hs =>
      subst ha; simp only [Action.tid] at hat; subst hat
      rcases hc with hc | ⟨o, hc⟩ <;> simp [hc] at hw
  · obtain ⟨h1, h2, -⟩ := step_outcome_other h c hat
    refine ⟨?_, h1, h2⟩
    unfold Sys.hasRun
    rw [step_th_other h c hat]
    exact hc

theorem run_hasRun {s s1 : Sys W} {l : List (Action W)} (h : run s l = some s1) (c : Tid)
    (rc : Request W) (hc : s.hasRun c rc) :
    s1.hasRun c rc ∧ (s1.heap c).val = (s.heap c).val ∧
      (s1.heap c).err = (s.heap c).err := by
  induction l generalizing s with
  | nil =>
    simp only [run, Option.some.injEq] at h
    subst h
    exact ⟨hc, rfl, rfl⟩
  | cons a l ih =>
    obtain ⟨s2, h2, h3⟩ := run_cons h
    obtain ⟨j1, j2, j3⟩ := step_hasRun h2 c rc hc
    obtain ⟨i1, i2, i3⟩ := ih h3 j1
    exact ⟨i1, i2.trans j2, i3.trans j3⟩

theorem takenAt_cons {s s1 sp sq : Sys W} {a x : Action W} {l pre : List (Action W)}
    (h1 : step s a = some s1) (ht : TakenAt s1 l pre x sp sq) :
    TakenAt s (a :: l) (a :: pre) x sp sq := by
  obtain ⟨⟨post, hpost⟩, hpre, hstep⟩ := ht
  exact ⟨⟨post, by simp [hpost]⟩, by simp [run, h1, hpre], hstep⟩

theorem takenAt_append {s0 s sp sq : Sys W} {x : Action W} {l0 l pre : List (Action W)}
    (h0 : run s0 l0 = some s) (ht : TakenAt s l pre x sp sq) :
    TakenAt s0 (l0 ++ l) (l0 ++ pre) x sp sq := by
  obtain ⟨⟨post, hpost⟩, hpre, hstep⟩ := ht
  exact ⟨⟨post, by simp [hpost]⟩, run_append_of h0 hpre, hstep⟩

/-- The rest of the schedule after a step of it. -/
theorem takenAt_suffix {s0 s2 sp sq : Sys W} {a : Action W} {hist pre : List (Action W)}
    (ht : TakenAt s0 hist pre a sp sq) (h : run s0 hist = some s2) :
    ∃ post, hist = pre ++ a :: post ∧ run sq post = some s2 := by
  obtain ⟨⟨post, hpost⟩, hpre, hstep⟩ := ht
  refine ⟨post, hpost, ?_⟩
  rw [hpost] at h
  obtain ⟨s1, h1, h2⟩ := run_append h
  rw [hpre] at h1
  obtain rfl := Option.some.inj h1
  obtain ⟨s3, h3, h4⟩ := run_cons h2
  rw [hstep] at h3
  obtain rfl := Option.some.inj h3
  exact h4

/-- An invocation that has run its closure did so in exactly one step of the schedule,
as an owner, and what the call stores is what the closure made of the world of that
step. -/
theorem run_split_runFn {s s2 : Sys W} {l : List (Action W)} (hi : Inv s)
    (h : run s l = some s2) (c : Tid) (rc : Request W)
    (hnot : ∀ r, ¬ s.hasRun c r) (hc : s2.hasRun c rc) :
    ∃ pre sp sq, TakenAt s l pre (Action.runFn c) sp sq ∧ sp.th c = Thread.owner rc ∧
      (s2.heap c).val = (rc.fn sp.world).1.1 ∧ (s2.heap c).err = (rc.fn sp.world).1.2 ∧
      sq.world = (rc.fn sp.world).2 := by
  induction l generalizing s with
  | nil =>
    simp only [run, Option.some.injEq] at h
    subst h
    exact absurd hc (hnot rc)
  | cons a l ih =>
    obtain ⟨s1, h1, h2⟩ := run_cons h
    by_cases hrun : ∃ r, s1.hasRun c r
    · obtain ⟨r, hr⟩ := hrun
      have hkey : a = Action.runFn c ∧ s.th c = Thread.owner r := by
        by_cases hat : a.tid = c
        · cases step_cases h1 with
          | join t0 r0 c0 ha hidle hm hs =>
            subst ha; simp only [Action.tid] at hat; subst hat; subst hs
            rcases hr with hr | ⟨o, hr⟩ <;> simp [Sys.hasRun] at hr
          | own t0 r0 ha hidle hm hs =>
            subst ha; simp only [Action.tid] at hat; subst hat; subst hs
            rcases hr with hr | ⟨o, hr⟩ <;> simp [Sys.hasRun] at hr
          | runFn t0 r0 ha ho hs =>
            subst ha; simp only [Action.tid] at hat; subst hat; subst hs
            rcases hr with hr | ⟨o, hr⟩
            · simp only [upd_same, Thread.ran.injEq] at hr
              subst hr
              exact ⟨rfl, ho⟩
            · simp at hr
          | retire t0 r0 ha hr0 hs =>
            subst ha; simp only [Action.tid] at hat; subst hat
            exact absurd (Or.inl hr0) (hnot r0)
          | wake t0 r0 c0 ha hw hd hs =>
            subst ha; simp only [Action.tid] at hat; subst hat; subst hs
            rcases hr with hr | ⟨o, hr⟩
            · simp at hr
            · simp only [upd_same, Thread.returned.injEq] at hr
              obtain ⟨rc1, -, ho1⟩ := hi.wait_own _ _ _ hw
              rw [hr.2.1] at ho1
              rcases ho1 with ho1 | ho1 | ho1 <;> simp [hw] at ho1
        · exfalso
          apply hnot r
          unfold Sys.hasRun at hr ⊢
          rw [step_th_other h1 c hat] at hr
          exact hr
      obtain ⟨rfl, ho⟩ := hkey
      have hexp := step_runFn s c r ho
      rw [h1] at hexp
      have hs1 := Option.some.inj hexp
      obtain ⟨k1, k2, k3⟩ := run_hasRun h2 c r hr
      have hrr : r = rc := hasRun_inj k1 hc
      subst hrr
      refine ⟨[], s, s1, ⟨⟨l, rfl⟩, rfl, h1⟩, ho, ?_, ?_, ?_⟩
      · rw [k2, hs1]; simp
      · rw [k3, hs1]; simp
      · rw [hs1]
    · obtain ⟨pre, sp, sq, ht, g⟩ := ih (step_inv hi h1) h2
        (fun r hr => hrun ⟨r, hr⟩)
      exact ⟨a :: pre, sp, sq, takenAt_cons h1 ht, g⟩

/-- No step of a follower changes the world. -/
theorem follower_never_applies {s0 s2 : Sys W} {hist : List (Action W)}
    (h : run s0 hist = some s2) (t c : Tid) (r : Request W) (hct : c ≠ t)
    (hf : s2.th t = Thread.waiting r c ∨ ∃ o, s2.th t = Thread.returned r c o) :
    ∀ pre a sp sq, TakenAt s0 hist pre a sp sq → a.tid = t → sq.world = sp.world := by
  intro pre a sp sq ht hat
  apply step_world_same ht.2.2
  intro r1 ho
  rw [hat] at ho
  obtain ⟨post, -, hpost⟩ := takenAt_suffix ht h
  have hrest : run sp (a :: post) = some s2 := by
    simp [run, ht.2.2, hpost]
  have ho2 := run_owned hrest t r1 (Or.inl ho)
  rcases hf with hf | ⟨o, hf⟩
  · rcases ho2 with g | g | ⟨o1, g⟩ <;> simp [hf] at g
  · rcases ho2 with g | g | ⟨o1, g⟩ <;> simp [hf] at g
    exact hct g.2.1

/-- Apart from the one step in which it runs its closure, no step of an owner changes
the world. -/
theorem owner_applies_once {s0 sp sq : Sys W} {hist pre : List (Action W)} (c : Tid)
    (rc : Request W) (ht : TakenAt s0 hist pre (Action.runFn c) sp sq)
    (ho : sp.th c = Thread.owner rc) :
    ∀ pre1 a sp1 sq1, TakenAt s0 hist pre1 a sp1 sq1 → a.tid = c → pre1 ≠ pre →
      sq1.world = sp1.world := by
  intro pre1 a sp1 sq1 ht1 hat hne
  apply step_world_same ht1.2.2
  intro r1 ho1
  rw [hat] at ho1
  obtain ⟨⟨post, hpost⟩, hpre, hstep⟩ := ht
  obtain ⟨⟨post1, hpost1⟩, hpre1, hstep1⟩ := ht1
  have hsq : sq.hasRun c rc := by
    have hexp := step_runFn sp c rc ho
    rw [hstep] at hexp
    rw [Option.some.inj hexp]
    exact Or.inl (upd_same _ _ _)
  rw [hpost] at hpost1
  rcases List.append_eq_append_iff.1 hpost1 with ⟨m, hm1, hm2⟩ | ⟨m, hm1, hm2⟩
  · cases m with
    | nil => exact hne (by simpa using hm1)
    | cons x m =>
      simp only [List.cons_append, List.cons.injEq] at hm2
      obtain ⟨rfl, -⟩ := hm2
      rw [hm1] at hpre1
      obtain ⟨s1, g1, g2⟩ := run_append hpre1
      rw [hpre] at g1
      obtain rfl := Option.some.inj g1
      obtain ⟨s3, g3, g4⟩ := run_cons g2
      rw [hstep] at g3
      obtain rfl := Option.some.inj g3
      obtain ⟨k1, -⟩ := run_hasRun g4 c rc hsq
      rcases k1 with k | ⟨o, k⟩ <;> simp [ho1] at k
  · cases m with
    | nil => exact hne (by simpa using hm1.symm)
    | cons x m =>
      simp only [List.cons_append, List.cons.injEq] at hm2
      obtain ⟨rfl, -⟩ := hm2
      rw [hm1] at hpre
      obtain ⟨s1, g1, g2⟩ := run_append hpre
      rw [hpre1] at g1
      obtain rfl := Option.some.inj g1
      obtain ⟨s3, g3, g4⟩ := run_cons g2
      rw [hstep1] at g3
      obtain rfl := Option.some.inj g3
      have hsq1 : sq1.hasRun c r1 := by
        cases step_cases hstep1 with
        | join t0 r0 c0 ha hidle hm hs =>
          subst ha; simp only [Action.tid] at hat; subst hat; simp [ho1] at hidle
        | own t0 r0 ha hidle hm hs =>
          subst ha; simp only [Action.tid] at hat; subst hat; simp [ho1] at hidle
        | runFn t0 r0 ha ho0 hs =>
          subst ha; simp only [Action.tid] at hat; subst hat
          rw [ho1] at ho0
          simp only [Thread.owner.injEq] at ho0
          subst ho0; subst hs
          exact Or.inl (upd_same _ _ _)
        | retire t0 r0 ha hr hs =>
          subst ha; simp only [Action.tid] at hat; subst hat; simp [ho1] at hr
        | wake t0 r0 c0 ha hw hd hs =>
          subst ha; simp only [Action.tid] at hat; subst hat; simp [ho1] at hw
      obtain ⟨k1, -⟩ := run_hasRun g4 c r1 hsq1
      rcases k1 with k | ⟨o, k⟩ <;> simp [ho] at k

theorem run_after {s : Sys W} {l : List (Action W)} (h : (run s l).isSome = true) :
    run s l = some (s.after l) := by
  unfold Sys.after
  cases hl : guardian.run s l with
  | none => simp [hl] at h
  | some s1 => rfl

/-! # The claims -/

/-- C2: Get is transparent on success.  For every key (the empty string included) and
every fetch action, an invocation of Get that finds no call registered for the key is
never blocked; its fetch action is applied exactly once, to exactly that key (the world
moves by one application of the action, the record holds the single entry for the
invocation), and when that application yields `(p, nil)`, for any payload `p` (nil and
empty included), Get returns `(p, nil)` with `p` unchanged, whatever other invocations do
in between. -/
theorem C2_get_transparent_on_success {s : Sys W} (hs : Reachable s) (t : Tid)
    (key : String) (cmd : GetAction W)
    (hidle : s.th t = Thread.idle) (hfree : s.cm.g.m key = none) :
    ∃ s1, step s (Action.arrive t (Request.get key cmd)) = some s1 ∧ s1.world = s.world ∧
      ∀ l1 sa, (∀ a ∈ l1, a.tid ≠ t) → run s1 l1 = some sa →
        ∃ sb, step sa (Action.runFn t) = some sb ∧ sb.world = (cmd key sa.world).2 ∧
          ∀ l2 sc, (∀ a ∈ l2, a.tid ≠ t) → run sb l2 = some sc →
            ∃ s2, step sc (Action.retire t) = some s2 ∧ s2.world = sc.world ∧
              ∀ l3 s3, run s2 l3 = some s3 →
                s3.invoked.filter (fun e => decide (e.1 = t)) = [(t, key)] ∧
                ∀ p, (cmd key sa.world).1 = (p, none) →
                  s3.result t = some (Ret.get p none) := by
  obtain ⟨s1, h1, hw1, -, -, h⟩ := owner_life hs t (Request.get key cmd) hidle hfree
  refine ⟨s1, h1, hw1, fun l1 sa hl1 hr1 => ?_⟩
  obtain ⟨sb, hb, hwb, h⟩ := h l1 sa hl1 hr1
  refine ⟨sb, hb, hwb, fun l2 sc hl2 hr2 => ?_⟩
  obtain ⟨s2, h2, hw2, -, h⟩ := h l2 sc hl2 hr2
  refine ⟨s2, h2, hw2, fun l3 s3 hr3 => ?_⟩
  obtain ⟨hth, hinv⟩ := h l3 s3 hr3
  refine ⟨hinv, fun p hp => ?_⟩
  simp [Sys.result, hth, Request.ret, Request.fn, Guardian.getFn, Guardian.getRet, hp]

/-- Witness of C2 on the store of the tests: a Get for a key the store holds, alone on
a fresh guard, returns the stored bytes and a nil error after one fetch. -/
theorem C2_get_transparent_on_success_witness :
    (Sys.init (FakeAPICache.holding "testKey" [7, 8])).th 0 = Thread.idle ∧
    (Sys.init (FakeAPICache.holding "testKey" [7, 8])).cm.g.m "testKey" = none ∧
    ∃ s3, run (Sys.init (FakeAPICache.holding "testKey" [7, 8]))
        [Action.arrive 0 (Request.get "testKey" fetchFake), Action.runFn 0,
          Action.retire 0] = some s3 ∧
      s3.invoked.filter (fun e => decide (e.1 = 0)) = [(0, "testKey")] ∧
      s3.result 0 = some (Ret.get (some [7, 8]) none) := by
  refine ⟨rfl, rfl, ?_⟩
  obtain ⟨s1, h1, hw1, h⟩ := C2_get_transparent_on_success
    (Reachable.init (FakeAPICache.holding "testKey" [7, 8])) 0 "testKey" fetchFake rfl rfl
  obtain ⟨sb, hb, -, h⟩ := h [] s1 (by simp) rfl
  obtain ⟨s2, h2, -, h⟩ := h [] sb (by simp) rfl
  obtain ⟨hinv, hres⟩ := h [] s2 rfl
  refine ⟨s2, by simp [run, h1, hb, h2], hinv, hres _ ?_⟩
  rw [hw1]
  rfl

/-- C3: Set returns exactly the outcome of its write action.  For every key and every
write action, an invocation of Set that finds no call registered for the key is never
blocked; its write action is applied exactly once, to exactly that key, and Set returns
the very error that application returned, so nil exactly when the action returned nil,
whatever other invocations do in between. -/
theorem C3_set_returns_write_outcome {s : Sys W} (hs : Reachable s) (t : Tid)
    (key : String) (cmd : SetAction W)
    (hidle : s.th t = Thread.idle) (hfree : s.cm.g.m key = none) :
    ∃ s1, step s (Action.arrive t (Request.set key cmd)) = some s1 ∧ s1.world = s.world ∧
      ∀ l1 sa, (∀ a ∈ l1, a.tid ≠ t) → run s1 l1 = some sa →
        ∃ sb, step sa (Action.runFn t) = some sb ∧ sb.world = (cmd key sa.world).2 ∧
          ∀ l2 sc, (∀ a ∈ l2, a.tid ≠ t) → run sb l2 = some sc →
            ∃ s2, step sc (Action.retire t) = some s2 ∧ s2.world = sc.world ∧
              ∀ l3 s3, run s2 l3 = some s3 →
                s3.invoked.filter (fun e => decide (e.1 = t)) = [(t, key)] ∧
                s3.result t = some (Ret.set (cmd key sa.world).1) ∧
                (s3.result t = some (Ret.set none) ↔ (cmd key sa.world).1 = none) := by
  obtain ⟨s1, h1, hw1, -, -, h⟩ := owner_life hs t (Request.set key cmd) hidle hfree
  refine ⟨s1, h1, hw1, fun l1 sa hl1 hr1 => ?_⟩
  obtain ⟨sb, hb, hwb, h⟩ := h l1 sa hl1 hr1
  refine ⟨sb, hb, hwb, fun l2 sc hl2 hr2 => ?_⟩
  obtain ⟨s2, h2, hw2, -, h⟩ := h l2 sc hl2 hr2
  refine ⟨s2, h2, hw2, fun l3 s3 hr3 => ?_⟩
  obtain ⟨hth, hinv⟩ := h l3 s3 hr3
  refine ⟨hinv, ?_, ?_⟩ <;>
    simp [Sys.result, hth, Request.ret, Request.fn, Guardian.setFn, Guardian.setRet]

/-- Witness of C3, the first half of `TestGuardian_Set`: a Set alone on a fresh guard
writes once and returns nil. -/
theorem C3_set_returns_write_outcome_witness :
    (Sys.init FakeAPICache.empty).th 0 = Thread.idle ∧
    (Sys.init FakeAPICache.empty).cm.g.m "testKey" = none ∧
    ∃ s3, run (Sys.init FakeAPICache.empty)
        [Action.arrive 0 (Request.set "testKey" (writeFake [7, 8])), Action.runFn 0,
          Action.retire 0] = some s3 ∧
      s3.invoked.filter (fun e => decide (e.1 = 0)) = [(0, "testKey")] ∧
      s3.result 0 = some (Ret.set none) ∧ s3.world.OpsSet = 1 := by
  refine ⟨rfl, rfl, ?_⟩
  obtain ⟨s1, h1, hw1, h⟩ := C3_set_returns_write_outcome
    (Reachable.init FakeAPICache.empty) 0 "testKey" (writeFake [7, 8]) rfl rfl
  obtain ⟨sb, hb, hwb, h⟩ := h [] s1 (by simp) rfl
  obtain ⟨s2, h2, hw2, h⟩ := h [] sb (by simp) rfl
  obtain ⟨hinv, hres, -⟩ := h [] s2 rfl
  refine ⟨s2, by simp [run, h1, hb, h2], hinv, ?_, ?_⟩
  · rw [hres, hw1]
    rfl
  · rw [hw2, hwb, hw1]
    rfl

/-- C4: Get surfaces the error of its fetch action unchanged.  For every key and every
fetch action, an invocation of Get that finds no call registered for the key applies its
fetch action exactly once (no retry), and when that application yields a non-nil error
`e`, Get returns the error `e` itself, neither wrapped nor replaced, whatever other
invocations do in between. -/
theorem C4_get_surfaces_error {s : Sys W} (hs : Reachable s) (t : Tid)
    (key : String) (cmd : GetAction W)
    (hidle : s.th t = Thread.idle) (hfree : s.cm.g.m key = none) :
    ∃ s1, step s (Action.arrive t (Request.get key cmd)) = some s1 ∧ s1.world = s.world ∧
      ∀ l1 sa, (∀ a ∈ l1, a.tid ≠ t) → run s1 l1 = some sa →
        ∃ sb, step sa (Action.runFn t) = some sb ∧ sb.world = (cmd key sa.world).2 ∧
          ∀ l2 sc, (∀ a ∈ l2, a.tid ≠ t) → run sb l2 = some sc →
            ∃ s2, step sc (Action.retire t) = some s2 ∧ s2.world = sc.world ∧
              ∀ l3 s3, run s2 l3 = some s3 →
                s3.invoked.filter (fun e => decide (e.1 = t)) = [(t, key)] ∧
                ∀ e, (cmd key sa.world).1.2 = some e →
                  s3.result t = some (Ret.get none (some e)) := by
  obtain ⟨s1, h1, hw1, -, -, h⟩ := owner_life hs t (Request.get key cmd) hidle hfree
  refine ⟨s1, h1, hw1, fun l1 sa hl1 hr1 => ?_⟩
  obtain ⟨sb, hb, hwb, h⟩ := h l1 sa hl1 hr1
  refine ⟨sb, hb, hwb, fun l2 sc hl2 hr2 => ?_⟩
  obtain ⟨s2, h2, hw2, -, h⟩ := h l2 sc hl2 hr2
  refine ⟨s2, h2, hw2, fun l3 s3 hr3 => ?_⟩
  obtain ⟨hth, hinv⟩ := h l3 s3 hr3
  refine ⟨hinv, fun e he => ?_⟩
  simp [Sys.result, hth, Request.ret, Request.fn, Guardian.getFn, Guardian.getRet, he]

/-- Witness of C4, which is `TestGuardian_Get`: a Get for a key the store does not hold
returns the error of the store. -/
theorem C4_get_surfaces_error_witness :
    (Sys.init FakeAPICache.empty).th 0 = Thread.idle ∧
    (Sys.init FakeAPICache.empty).cm.g.m "testKey" = none ∧
    ∃ s3, run (Sys.init FakeAPICache.empty)
        [Action.arrive 0 (Request.get "testKey" fetchFake), Action.runFn 0,
          Action.retire 0] = some s3 ∧
      s3.invoked.filter (fun e => decide (e.1 = 0)) = [(0, "testKey")] ∧
      s3.result 0 =
        some (Ret.get none (some (errors.New "key testKey does not exists"))) := by
  refine ⟨rfl, rfl, ?_⟩
  obtain ⟨s1, h1, hw1, h⟩ := C4_get_surfaces_error
    (Reachable.init FakeAPICache.empty) 0 "testKey" fetchFake rfl rfl
  obtain ⟨sb, hb, -, h⟩ := h [] s1 (by simp) rfl
  obtain ⟨s2, h2, -, h⟩ := h [] sb (by simp) rfl
  obtain ⟨hinv, hres⟩ := h [] s2 rfl
  refine ⟨s2, by simp [run, h1, hb, h2], hinv, hres _ ?_⟩
  rw [hw1]
  decide

/-- C9, as the code has it: Get returns the payload of its fetch action only together
with a nil error.  An invocation of Get that finds no call registered for the key applies
its fetch action exactly once; when the application yields `(p, nil)` Get returns
`(p, nil)`, and when it yields `(p, e)` with `e` non-nil Get returns `(nil, e)`: the error
is kept and the payload that came with it is dropped. -/
theorem C9_get_returns_payload_or_error {s : Sys W} (hs : Reachable s) (t : Tid)
    (key : String) (cmd : GetAction W)
    (hidle : s.th t = Thread.idle) (hfree : s.cm.g.m key = none) :
    ∃ s1, step s (Action.arrive t (Request.get key cmd)) = some s1 ∧ s1.world = s.world ∧
      ∀ l1 sa, (∀ a ∈ l1, a.tid ≠ t) → run s1 l1 = some sa →
        ∃ sb, step sa (Action.runFn t) = some sb ∧ sb.world = (cmd key sa.world).2 ∧
          ∀ l2 sc, (∀ a ∈ l2, a.tid ≠ t) → run sb l2 = some sc →
            ∃ s2, step sc (Action.retire t) = some s2 ∧ s2.world = sc.world ∧
              ∀ l3 s3, run s2 l3 = some s3 →
                (∀ p, (cmd key sa.world).1 = (p, none) →
                  s3.result t = some (Ret.get p none)) ∧
                (∀ p e, (cmd key sa.world).1 = (p, some e) →
                  s3.result t = some (Ret.get none (some e))) := by
  obtain ⟨s1, h1, hw1, -, -, h⟩ := owner_life hs t (Request.get key cmd) hidle hfree
  refine ⟨s1, h1, hw1, fun l1 sa hl1 hr1 => ?_⟩
  obtain ⟨sb, hb, hwb, h⟩ := h l1 sa hl1 hr1
  refine ⟨sb, hb, hwb, fun l2 sc hl2 hr2 => ?_⟩
  obtain ⟨s2, h2, hw2, -, h⟩ := h l2 sc hl2 hr2
  refine ⟨s2, h2, hw2, fun l3 s3 hr3 => ?_⟩
  obtain ⟨hth, -⟩ := h l3 s3 hr3
  refine ⟨fun p hp => ?_, fun p e hp => ?_⟩ <;>
    simp [Sys.result, hth, Request.ret, Request.fn, Guardian.getFn, Guardian.getRet, hp]

/-- Witness of C9 as amended: a fetch yielding the payload `[1, 2]` together with an
error makes Get return the nil slice and that error. -/
theorem C9_get_returns_payload_or_error_witness :
    (Sys.init ()).th 0 = (Thread.idle : Thread Unit) ∧
    (Sys.init ()).cm.g.m "K" = none ∧
    ∃ s3, run (Sys.init ())
        [Action.arrive 0 (Request.get "K" fetchBoth), Action.runFn 0,
          Action.retire 0] = some s3 ∧
      s3.result 0 = some (Ret.get none (some (errors.New "backend down"))) := by
  refine ⟨rfl, rfl, ?_⟩
  obtain ⟨s1, h1, hw1, h⟩ := C9_get_returns_payload_or_error
    (Reachable.init ()) 0 "K" fetchBoth rfl rfl
  obtain ⟨sb, hb, -, h⟩ := h [] s1 (by simp) rfl
  obtain ⟨s2, h2, -, h⟩ := h [] sb (by simp) rfl
  obtain ⟨-, hres⟩ := h [] s2 rfl
  exact ⟨s2, by simp [run, h1, hb, h2], hres (some [1, 2]) _ rfl⟩

/-- C9 as stated fails: the fetch action yields the pair `([1, 2], "backend down")`, and
Get, alone on a fresh guard, returns `(nil, "backend down")`, which is not that pair. -/
theorem C9_counterexample :
    (fetchBoth "K" ()).1 = (some [1, 2], some (errors.New "backend down")) ∧
    (run (Sys.init ()) [Action.arrive 0 (Request.get "K" fetchBoth), Action.runFn 0,
        Action.retire 0]).bind (fun s => s.result 0)
      = some (Ret.get none (some (errors.New "backend down"))) ∧
    Ret.get none (some (errors.New "backend down"))
      ≠ Ret.get (some [1, 2]) (some (errors.New "backend down")) := by
  decide

/-- C5: fan-out to followers.  On a guard reached from a fresh one by any schedule, an
invocation of Get that arrives while the call of a Get is registered for its key (and an
invocation of Set that arrives while the call of a Set is) joins that call.  In every
later state no step it ever took has changed the world and its own action is on no record;
it has either not returned yet or returned exactly what the owner returned; once the
owner has returned, the owner ran its closure in exactly one step of the schedule, and
what the owner returned, hence what the follower returns, is what one application of the
owner's action in the world of that step yields, the payload on success and the action's
own error on failure; and the follower is then free to return. -/
theorem C5_fan_out_to_followers (w0 : W) (l0 : List (Action W)) {s : Sys W}
    (h0 : run (Sys.init w0) l0 = some s) (t c : Tid)
    (r rc : Request W) (hidle : s.th t = Thread.idle) (hreg : s.cm.g.m r.key = some c)
    (hown : s.th c = Thread.owner rc ∨ s.th c = Thread.ran rc)
    (hkind : r.isGet = rc.isGet) :
    ∃ s1, step s (Action.arrive t r) = some s1 ∧ s1.world = s.world ∧
      ∀ l s2, run s1 l = some s2 →
        s2.runs t = 0 ∧ s2.adopted t = some c ∧
        (∀ pre a sp sq,
          TakenAt (Sys.init w0) (l0 ++ Action.arrive t r :: l) pre a sp sq →
            a.tid = t → sq.world = sp.world) ∧
        (s2.result t = none ∨ s2.result t = s2.result c) ∧
        ((s2.result c).isSome →
          ∃ pre sp sq out,
            TakenAt (Sys.init w0) (l0 ++ Action.arrive t r :: l) pre (Action.runFn c) sp sq ∧
            Yields rc sp.world out sq.world ∧ s2.result c = some out ∧
            (s2.result t = none ∨ s2.result t = some out)) ∧
        (s2.result t = none → (s2.result c).isSome →
          ∃ s3, step s2 (Action.wake t) = some s3 ∧ s3.world = s2.world ∧
            s3.runs t = 0 ∧ (s3.result t).isSome ∧ s3.result t = s3.result c) := by
  have hyields : ∀ (r0 : Request W) (w : W),
      Yields r0 w (r0.ret (r0.fn w).1.1 (r0.fn w).1.2) (r0.fn w).2 := by
    intro r0 w
    cases r0 with
    | get key cmd =>
      refine ⟨rfl, fun p hp => ?_, fun p e hp => ?_⟩ <;>
        simp [Request.ret, Request.fn, Guardian.getFn, Guardian.getRet, hp]
    | set key cmd =>
      exact ⟨rfl, rfl⟩
  have hs : Reachable s := ⟨w0, l0, h0⟩
  obtain ⟨hct, s1, h1, hw1, h⟩ := follower_life hs t c r rc hidle hreg hown
  refine ⟨s1, h1, hw1, fun l s2 hl => ?_⟩
  obtain ⟨hr2, hf2, ho2⟩ := h l s2 hl
  obtain ⟨g1, g2, g3, g4, g5, -⟩ := follower_state hr2 t c r rc hct hf2 ho2
  have hhist : run (Sys.init w0) (l0 ++ Action.arrive t r :: l) = some s2 :=
    run_append_of h0 (by simp [run, h1, hl])
  have heq : s2.result t = none ∨ s2.result t = s2.result c := by
    rcases g3 with g | ⟨ga, gb⟩
    · exact Or.inl g
    · exact Or.inr (by rw [ga, gb, ret_eq_of_isGet r rc hkind])
  refine ⟨g1, g2, follower_never_applies hhist t c r hct hf2, heq, fun hsome => ?_,
    fun hnone hsome => ?_⟩
  · have hrun : s2.hasRun c rc := by
      rcases ho2 with k | k | k
      · simp [Sys.result, k] at hsome
      · exact Or.inl k
      · exact Or.inr k
    obtain ⟨pre, sp, sq, ht, -, hv, he, hw⟩ := run_split_runFn (inv_init w0) hhist c rc
      (fun r0 hr0 => by rcases hr0 with k | ⟨o, k⟩ <;> simp [Sys.init] at k) hrun
    obtain ⟨out, hout⟩ := Option.isSome_iff_exists.1 hsome
    have hout2 := g5 out hout
    rw [hv, he] at hout2
    refine ⟨pre, sp, sq, out, ht, ?_, hout, ?_⟩
    · rw [hout2, hw]
      exact hyields rc sp.world
    · rw [← hout]
      exact heq
  · obtain ⟨s3, h3, hw3, hsome3⟩ := g4 hnone hsome
    obtain ⟨k1, -, k3, -, -, -⟩ := follower_state (hr2.step h3) t c r rc hct
      (step_follows h3 t r c hf2) (step_owned h3 c rc ho2)
    refine ⟨s3, h3, hw3, k1, hsome3, ?_⟩
    rcases k3 with k | ⟨ka, kb⟩
    · simp [k] at hsome3
    · rw [ka, kb, ret_eq_of_isGet r rc hkind]

/-- Witness of C5, which is `TestGuardian_ConcurrentlyGet`: a second Get arrives while
the first is registered; the store is read once, in the step in which the first runs its
closure, and both return the stored bytes. -/
theorem C5_fan_out_to_followers_witness :
    ((Sys.init (FakeAPICache.holding "testKey" [7, 8])).after
      [Action.arrive 0 (Request.get "testKey" fetchFake)]).th 1 = Thread.idle ∧
    ∃ s4, run ((Sys.init (FakeAPICache.holding "testKey" [7, 8])).after
          [Action.arrive 0 (Request.get "testKey" fetchFake)])
        [Action.arrive 1 (Request.get "testKey" fetchFake), Action.runFn 0,
          Action.retire 0, Action.wake 1] = some s4 ∧
      s4.runs 1 = 0 ∧ s4.result 1 = s4.result 0 ∧
      s4.result 1 = some (Ret.get (some [7, 8]) none) ∧ s4.world.OpsGet = 1 ∧
      ∃ pre sp sq out,
        TakenAt (Sys.init (FakeAPICache.holding "testKey" [7, 8]))
          ([Action.arrive 0 (Request.get "testKey" fetchFake)] ++
            Action.arrive 1 (Request.get "testKey" fetchFake) ::
              [Action.runFn 0, Action.retire 0, Action.wake 1])
          pre (Action.runFn 0) sp sq ∧
        Yields (Request.get "testKey" fetchFake) sp.world out sq.world ∧
        s4.result 0 = some out := by
  refine ⟨rfl, ?_⟩
  obtain ⟨s1, h1, -, h⟩ := C5_fan_out_to_followers
    (FakeAPICache.holding "testKey" [7, 8])
    [Action.arrive 0 (Request.get "testKey" fetchFake)]
    (run_after rfl)
    1 0 (Request.get "testKey" fetchFake) (Request.get "testKey" fetchFake)
    rfl rfl (Or.inl rfl) rfl
  have hsome : (run ((Sys.init (FakeAPICache.holding "testKey" [7, 8])).after
          [Action.arrive 0 (Request.get "testKey" fetchFake)])
        [Action.arrive 1 (Request.get "testKey" fetchFake), Action.runFn 0,
          Action.retire 0, Action.wake 1]).isSome = true := rfl
  obtain ⟨s4, h4⟩ := Option.isSome_iff_exists.1 hsome
  have hres : (run ((Sys.init (FakeAPICache.holding "testKey" [7, 8])).after
          [Action.arrive 0 (Request.get "testKey" fetchFake)])
        [Action.arrive 1 (Request.get "testKey" fetchFake), Action.runFn 0,
          Action.retire 0, Action.wake 1]).bind (fun s => s.result 1)
      = some (Ret.get (some [7, 8]) none) := by decide
  have hops : (run ((Sys.init (FakeAPICache.holding "testKey" [7, 8])).after
          [Action.arrive 0 (Request.get "testKey" fetchFake)])
        [Action.arrive 1 (Request.get "testKey" fetchFake), Action.runFn 0,
          Action.retire 0, Action.wake 1]).map (fun s => s.world.OpsGet)
      = some 1 := by decide
  rw [h4] at hres hops
  simp only [Option.some_bind, Option.map_some', Option.some.injEq] at hres hops
  obtain ⟨s1a, h1a, hrest⟩ := run_cons h4
  rw [h1] at h1a
  obtain rfl := Option.some.inj h1a
  obtain ⟨g1, -, -, g3, g5, -⟩ := h _ s4 hrest
  have heq : s4.result 1 = s4.result 0 := by
    rcases g3 with g | g
    · rw [hres] at g
      simp at g
    · exact g
  obtain ⟨pre, sp, sq, out, ht, hy, hout, -⟩ := g5 (by rw [← heq, hres]; rfl)
  exact ⟨s4, h4, g1, heq, hres, hops, pre, sp, sq, out, ht, hy, hout⟩

/-- C10, as the code has it: the assertion error reaches the caller exactly through a
Set.  Take any schedule from a fresh guard and a Get in it that has returned `out`.  It
adopted the outcome of a call for its own key whose owner has returned too, and that owner
ran its closure in exactly one step of the schedule.  When the owner is a Get (the
invocation itself or another one), `out` is what the fetch action gave in the world of
that step: `(p, nil)` when it returned `(p, nil)`, so a nil error whenever the action
returned a nil error, and `(nil, e)` when it returned the error `e`.  When the owner is a
Set, `out` is the nil slice with the error of the write action in the world of that step
if that error is non-nil, and with "assert interface to []byte error" if the write action
returned nil. -/
theorem C10_assertion_error_only_after_set (w0 : W) (l : List (Action W)) {s : Sys W}
    (h0 : run (Sys.init w0) l = some s) (t : Tid)
    (key : String) (cmd : GetAction W) (c : Tid) (out : Ret)
    (hret : s.th t = Thread.returned (Request.get key cmd) c out) :
    ∃ rc pre sp sq, TakenAt (Sys.init w0) l pre (Action.runFn c) sp sq ∧
      sp.th c = Thread.owner rc ∧ rc.key = key ∧ (∃ o, s.th c = Thread.returned rc c o) ∧
      (∀ k1 fetchOp, rc = Request.get k1 fetchOp →
        (∀ p, (fetchOp k1 sp.world).1 = (p, none) → out = Ret.get p none) ∧
        (∀ p e, (fetchOp k1 sp.world).1 = (p, some e) → out = Ret.get none (some e))) ∧
      (∀ k1 writeOp, rc = Request.set k1 writeOp →
        ((writeOp k1 sp.world).1 = none → out =
          Ret.get none (some (errors.New "assert interface to []byte error"))) ∧
        (∀ e, (writeOp k1 sp.world).1 = some e → out = Ret.get none (some e))) := by
  have hs : Reachable s := ⟨w0, l, h0⟩
  obtain ⟨h1, -, rc, hk, h3⟩ := hs.inv.ret_own t _ c out hret
  obtain ⟨pre, sp, sq, ht, ho, hv, he, -⟩ := run_split_runFn (inv_init w0) h0 c rc
    (fun r0 hr0 => by rcases hr0 with k | ⟨o, k⟩ <;> simp [Sys.init] at k)
    (Or.inr ⟨_, h3⟩)
  rw [hv, he] at h1
  refine ⟨rc, pre, sp, sq, ht, ho, hk, ⟨_, h3⟩, fun k1 fetchOp hrc => ?_,
    fun k1 writeOp hrc => ?_⟩
  · subst hrc
    refine ⟨fun p hp => ?_, fun p e hp => ?_⟩ <;>
      simp [h1, Request.ret, Request.fn, Guardian.getFn, Guardian.getRet, hp]
  · subst hrc
    refine ⟨fun hp => ?_, fun e hp => ?_⟩ <;>
      simp [h1, Request.ret, Request.fn, Guardian.setFn, Guardian.getRet, hp]

/-- Witness of C10 as amended: a Get joins a Set that writes without error and returns;
the owner of the adopted call is that Set, for the same key, and it ran its closure in one
step of the schedule. -/
theorem C10_assertion_error_only_after_set_witness :
    ∃ s rc pre sp sq,
      run (Sys.init ())
        [Action.arrive 0 (Request.set "K" writeOk), Action.arrive 1 (Request.get "K" fetchOk),
          Action.runFn 0, Action.retire 0, Action.wake 1] = some s ∧
      s.th 1 = Thread.returned (Request.get "K" fetchOk) 0
        (Ret.get none (some (errors.New "assert interface to []byte error"))) ∧
      TakenAt (Sys.init ())
        [Action.arrive 0 (Request.set "K" writeOk), Action.arrive 1 (Request.get "K" fetchOk),
          Action.runFn 0, Action.retire 0, Action.wake 1] pre (Action.runFn 0) sp sq ∧
      sp.th 0 = Thread.owner rc ∧ rc.key = "K" ∧ (writeOk "K" sp.world).1 = none := by
  have hth : ((Sys.init ()).after
      [Action.arrive 0 (Request.set "K" writeOk), Action.arrive 1 (Request.get "K" fetchOk),
        Action.runFn 0, Action.retire 0, Action.wake 1]).th 1
      = Thread.returned (Request.get "K" fetchOk) 0
          (Ret.get none (some (errors.New "assert interface to []byte error"))) := rfl
  obtain ⟨rc, pre, sp, sq, ht, ho, hk, -, -, -⟩ := C10_assertion_error_only_after_set ()
    [Action.arrive 0 (Request.set "K" writeOk), Action.arrive 1 (Request.get "K" fetchOk),
      Action.runFn 0, Action.retire 0, Action.wake 1]
    (run_after rfl) 1 "K" fetchOk 0 _ hth
  exact ⟨_, rc, pre, sp, sq, run_after rfl, hth, ht, ho, hk, rfl⟩

/-- C10 as stated fails: from a fresh guard, a Set whose write action returns nil is
registered, a Get for the same key arrives and joins it, the Set completes with a nil
error, and the Get returns the error "assert interface to []byte error", although no
action returned an error and the fetch action was never applied. -/
theorem C10_counterexample :
    (writeOk "K" ()).1 = none ∧ (fetchOk "K" ()).1.2 = none ∧
    (run (Sys.init ())
        [Action.arrive 0 (Request.set "K" writeOk), Action.arrive 1 (Request.get "K" fetchOk),
          Action.runFn 0, Action.retire 0, Action.wake 1]).map
        (fun s => (s.adopted 1, s.result 0, s.result 1, s.invoked))
      = some (some 0, some (Ret.set none),
          some (Ret.get none (some (errors.New "assert interface to []byte error"))),
          [(0, "K")]) := by
  decide

/-- C1: single execution.  On a reachable guard with no call registered for key `k`, let
an invocation `t1` arrive with `k`, and let every invocation of `rest` (any number of
them, all of the same method as `t1`) arrive with `k` in the phase `A`, in which `t1` has
not yet retired its call, interleaved with any other steps; let any steps `B` follow.
Then no step that an invocation of `rest` takes in the schedule changes the world, its
action is on no record, it adopted the call of `t1` and, if it has returned, returned what
`t1` returned.  And once `t1` has returned, among all steps of all these callers exactly
one has touched the world: the step in which `t1` ran its closure, which moved the world by
one application of the action of `t1` to `k` and yielded what `t1` and every caller that
has returned got back; no other step of `t1` changed the world, and the record holds that
one application.  Nobody is stuck: until it has returned `t1` can take its next step, and
once it has, every caller that has not returned yet can. -/
theorem C1_single_execution {s : Sys W} (hs : Reachable s) (k : String) (t1 : Tid)
    (r1 : Request W) (rest : List Tid) (A B : List (Action W)) (s2 : Sys W)
    (hk1 : r1.key = k) (hfree : s.cm.g.m k = none) (hidle : s.th t1 = Thread.idle)
    (ht1 : t1 ∉ rest) (hA : ∀ a ∈ A, a ≠ Action.retire t1)
    (harr : ∀ t ∈ rest, ∃ r : Request W,
      r.key = k ∧ r.isGet = r1.isGet ∧ Action.arrive t r ∈ A)
    (hrun : run s (Action.arrive t1 r1 :: (A ++ B)) = some s2) :
    (∀ t ∈ rest, s2.runs t = 0 ∧ s2.adopted t = some t1 ∧
      (s2.result t = none ∨ s2.result t = s2.result t1) ∧
      ∀ pre a sp sq, TakenAt s (Action.arrive t1 r1 :: (A ++ B)) pre a sp sq →
        a.tid = t → sq.world = sp.world) ∧
    s2.runs t1 ≤ 1 ∧
    ((s2.result t1).isSome →
      s2.invoked.filter (fun e => decide (e.1 = t1 ∨ e.1 ∈ rest)) = [(t1, k)] ∧
      ∃ pre sp sq out,
        TakenAt s (Action.arrive t1 r1 :: (A ++ B)) pre (Action.runFn t1) sp sq ∧
        Yields r1 sp.world out sq.world ∧ s2.result t1 = some out ∧
        (∀ t ∈ rest, s2.result t = none ∨ s2.result t = some out) ∧
        ∀ pre1 a sp1 sq1,
          TakenAt s (Action.arrive t1 r1 :: (A ++ B)) pre1 a sp1 sq1 →
            a.tid = t1 → pre1 ≠ pre → sq1.world = sp1.world) ∧
    (s2.result t1 = none →
      ∃ s3, step s2 (Action.runFn t1) = some s3 ∨ step s2 (Action.retire t1) = some s3) ∧
    (∀ t ∈ rest, s2.result t = none → (s2.result t1).isSome →
      ∃ s3, step s2 (Action.wake t) = some s3 ∧ s3.world = s2.world ∧
        (s3.result t).isSome) := by
  have hyields : ∀ (r0 : Request W) (w : W),
      Yields r0 w (r0.ret (r0.fn w).1.1 (r0.fn w).1.2) (r0.fn w).2 := by
    intro r0 w
    cases r0 with
    | get key cmd =>
      refine ⟨rfl, fun p hp => ?_, fun p e hp => ?_⟩ <;>
        simp [Request.ret, Request.fn, Guardian.getFn, Guardian.getRet, hp]
    | set key cmd =>
      exact ⟨rfl, rfl⟩
  subst hk1
  obtain ⟨s1, h1, hAB⟩ := run_cons hrun
  obtain ⟨sA, hrA, hrB⟩ := run_append hAB
  have hown := step_arrive_own s t1 r1 hidle hfree
  rw [h1] at hown
  have hs1 : s1.cm.g.m r1.key = some t1 ∧ s1.th t1 = Thread.owner r1 := by
    rw [Option.some.inj hown]
    exact ⟨upd_same _ _ _, upd_same _ _ _⟩
  have hr2 : Reachable s2 := hs.run hrun
  obtain ⟨-, hjoin⟩ := run_joins hrA r1.key t1 hs1.1 hA
  have ho2 := run_owned hAB t1 r1 (Or.inl hs1.2)
  have hrest : ∀ t ∈ rest, s2.runs t = 0 ∧ s2.adopted t = some t1 ∧
      (s2.result t = none ∨ s2.result t = s2.result t1) ∧
      ∀ pre a sp sq, TakenAt s (Action.arrive t1 r1 :: (A ++ B)) pre a sp sq →
        a.tid = t → sq.world = sp.world := by
    intro t ht
    obtain ⟨r, hrk, hkind, hmem⟩ := harr t ht
    have hne : t1 ≠ t := by
      rintro rfl
      exact ht1 ht
    have hf2 := run_follows hrB t r t1 (hjoin t r hmem hrk)
    obtain ⟨g1, g2, g3, -⟩ := follower_state hr2 t t1 r r1 hne hf2 ho2
    refine ⟨g1, g2, ?_, follower_never_applies hrun t t1 r hne hf2⟩
    rcases g3 with g | ⟨ga, gb⟩
    · exact Or.inl g
    · exact Or.inr (by rw [ga, gb, ret_eq_of_isGet r r1 hkind])
  refine ⟨hrest, List.nodup_iff_count_le_one.1 hr2.inv.nodup t1, fun hsome => ?_,
    fun hnone => ?_, fun t ht hnone hsome => ?_⟩
  rotate_left
  · rcases ho2 with h | h | ⟨o, h⟩
    · exact ⟨_, Or.inl (step_runFn s2 t1 r1 h)⟩
    · exact ⟨_, Or.inr (step_retire s2 t1 r1 h)⟩
    · simp [Sys.result, h] at hnone
  · obtain ⟨r, hrk, hkind, hmem⟩ := harr t ht
    have hne : t1 ≠ t := by
      rintro rfl
      exact ht1 ht
    have hf2 := run_follows hrB t r t1 (hjoin t r hmem hrk)
    obtain ⟨-, -, -, g4, -⟩ := follower_state hr2 t t1 r r1 hne hf2 ho2
    exact g4 hnone hsome
  have hret : ∃ o, s2.th t1 = Thread.returned r1 t1 o := by
    rcases ho2 with h | h | h
    · simp [Sys.result, h] at hsome
    · simp [Sys.result, h] at hsome
    · exact h
  obtain ⟨o, ho⟩ := hret
  constructor
  · rw [← invoked_of_returned hr2.inv t1 r1 o ho]
    apply List.filter_congr
    intro e he
    have hnot : e.1 ∉ rest := by
      intro hin
      have h0 := (hrest e.1 hin).1
      unfold Sys.runs at h0
      rw [List.count_eq_zero] at h0
      exact h0 (List.mem_map_of_mem Prod.fst he)
    simp [hnot]
  · obtain ⟨pre, sp, sq, ht, hown1, hv, he, hw⟩ := run_split_runFn hs.inv hrun t1 r1
      (fun r0 hr0 => by rcases hr0 with k | ⟨o0, k⟩ <;> simp [hidle] at k)
      (Or.inr ⟨o, ho⟩)
    have hres : s2.result t1
        = some (r1.ret (r1.fn sp.world).1.1 (r1.fn sp.world).1.2) := by
      obtain ⟨g1, -, -⟩ := hr2.inv.ret_own t1 r1 t1 o ho
      rw [hv, he] at g1
      simp [Sys.result, ho, g1]
    refine ⟨pre, sp, sq, _, ht, ?_, hres, fun t ht0 => ?_,
      owner_applies_once t1 r1 ht hown1⟩
    · rw [hw]
      exact hyields r1 sp.world
    · rw [← hres]
      exact (hrest t ht0).2.2.1

/-- Witness of C1, `TestGuardian_ConcurrentlySet` with three callers: three Sets for one
key arrive before the first completes; the store is written once, by the step in which
the first runs its closure, and all return nil. -/
theorem C1_single_execution_witness :
    ∃ s2, run (Sys.init FakeAPICache.empty)
        (Action.arrive 0 (Request.set "testKey" (writeFake [7, 8])) ::
          ([Action.arrive 1 (Request.set "testKey" (writeFake [7, 8])),
              Action.arrive 2 (Request.set "testKey" (writeFake [7, 8]))] ++
            [Action.runFn 0, Action.retire 0, Action.wake 1, Action.wake 2])) = some s2 ∧
      s2.world.OpsSet = 1 ∧
      s2.result 0 = some (Ret.set none) ∧
      s2.runs 1 = 0 ∧ s2.result 1 = s2.result 0 ∧
      s2.runs 2 = 0 ∧ s2.result 2 = s2.result 0 ∧
      s2.invoked.filter (fun e => decide (e.1 = 0 ∨ e.1 ∈ [1, 2])) = [(0, "testKey")] ∧
      ∃ pre sp sq out,
        TakenAt (Sys.init FakeAPICache.empty)
          (Action.arrive 0 (Request.set "testKey" (writeFake [7, 8])) ::
            ([Action.arrive 1 (Request.set "testKey" (writeFake [7, 8])),
                Action.arrive 2 (Request.set "testKey" (writeFake [7, 8]))] ++
              [Action.runFn 0, Action.retire 0, Action.wake 1, Action.wake 2]))
          pre (Action.runFn 0) sp sq ∧
        Yields (Request.set "testKey" (writeFake [7, 8])) sp.world out sq.world ∧
        s2.result 0 = some out := by
  have hsome : (run (Sys.init FakeAPICache.empty)
        (Action.arrive 0 (Request.set "testKey" (writeFake [7, 8])) ::
          ([Action.arrive 1 (Request.set "testKey" (writeFake [7, 8])),
              Action.arrive 2 (Request.set "testKey" (writeFake [7, 8]))] ++
            [Action.runFn 0, Action.retire 0, Action.wake 1, Action.wake 2]))).isSome
      = true := rfl
  obtain ⟨s2, h2⟩ := Option.isSome_iff_exists.1 hsome
  have hval : (run (Sys.init FakeAPICache.empty)
        (Action.arrive 0 (Request.set "testKey" (writeFake [7, 8])) ::
          ([Action.arrive 1 (Request.set "testKey" (writeFake [7, 8])),
              Action.arrive 2 (Request.set "testKey" (writeFake [7, 8]))] ++
            [Action.runFn 0, Action.retire 0, Action.wake 1, Action.wake 2]))).map
        (fun s => (s.world.OpsSet, s.result 0, s.result 1, s.result 2))
      = some (1, some (Ret.set none), some (Ret.set none), some (Ret.set none)) := rfl
  rw [h2] at hval
  simp only [Option.map_some', Option.some.injEq, Prod.mk.injEq] at hval
  obtain ⟨hops, hres0, hres1, hres2⟩ := hval
  obtain ⟨hrest, -, hinv, -, -⟩ :=
    C1_single_execution (Reachable.init FakeAPICache.empty) "testKey" 0
      (Request.set "testKey" (writeFake [7, 8])) [1, 2] _ _ s2 rfl rfl rfl (by decide)
      (by simp)
      (by
        intro t ht
        refine ⟨Request.set "testKey" (writeFake [7, 8]), rfl, rfl, ?_⟩
        simp only [List.mem_cons, List.mem_singleton, List.not_mem_nil, or_false] at ht
        rcases ht with rfl | rfl <;> simp)
      h2
  obtain ⟨hfilter, pre, sp, sq, out, ht, hy, hout, -⟩ := hinv (by simp [hres0])
  exact ⟨s2, h2, hops, hres0, (hrest 1 (by simp)).1, by rw [hres1, hres0],
    (hrest 2 (by simp)).1, by rw [hres2, hres0], hfilter, pre, sp, sq, out, ht, hy, hout⟩

/-- C6, as the code has it: re-entry after completion, between calls that own their call.
Let an invocation `t1` with request `r1` for key `K` arrive on a reachable guard with no
call registered for `K`, run its closure and retire, other invocations stepping in
between.  Then its action was applied once, in the step in which it ran its closure (no
other step of `t1` changed the world), `t1` has returned what that application yields and
the registry holds nothing for `K`.  Let then, after steps of others, a second invocation
`t2` with request `r2` for `K` arrive while no call is registered for `K`: it is never
blocked, owns a fresh call, applies its own action once, in the world of that moment, and
returns what that application yields, not what `t1` returned; both actions are on record
exactly once each. -/
theorem C6_reentry_after_completion {s : Sys W} (hs : Reachable s) (t1 t2 : Tid)
    (r1 r2 : Request W) (l1 l2 : List (Action W)) (sa sm : Sys W)
    (hkey : r2.key = r1.key) (hne : t1 ≠ t2)
    (hidle1 : s.th t1 = Thread.idle) (hidle2 : s.th t2 = Thread.idle)
    (hfree : s.cm.g.m r1.key = none)
    (hl1 : ∀ a ∈ l1, a.tid ≠ t1 ∧ a.tid ≠ t2) (hl2 : ∀ a ∈ l2, a.tid ≠ t1 ∧ a.tid ≠ t2)
    (hrun1 : run s (Action.arrive t1 r1 :: l1) = some sa)
    (hrun2 : run sa (Action.runFn t1 :: (l2 ++ [Action.retire t1])) = some sm) :
    ∃ sb1 out1, step sa (Action.runFn t1) = some sb1 ∧ Yields r1 sa.world out1 sb1.world ∧
      (∀ pre a sp sq,
        TakenAt s ((Action.arrive t1 r1 :: l1) ++
            Action.runFn t1 :: (l2 ++ [Action.retire t1])) pre a sp sq →
          a.tid = t1 → pre ≠ Action.arrive t1 r1 :: l1 → sq.world = sp.world) ∧
      sm.result t1 = some out1 ∧ sm.cm.g.m r1.key = none ∧
      ∀ l3 sn, (∀ a ∈ l3, a.tid ≠ t2) → run sm l3 = some sn →
        sn.cm.g.m r1.key = none →
        ∃ s1, step sn (Action.arrive t2 r2) = some s1 ∧ s1.world = sn.world ∧
          s1.adopted t2 = some t2 ∧
          ∀ l4 sb, (∀ a ∈ l4, a.tid ≠ t2) → run s1 l4 = some sb →
            ∃ sc out2, step sb (Action.runFn t2) = some sc ∧
              Yields r2 sb.world out2 sc.world ∧
              ∀ l5 sd, (∀ a ∈ l5, a.tid ≠ t2) → run sc l5 = some sd →
                ∃ s2, step sd (Action.retire t2) = some s2 ∧ s2.world = sd.world ∧
                  ∀ l6 s3, run s2 l6 = some s3 →
                    s3.result t2 = some out2 ∧ s3.result t1 = some out1 ∧
                    s3.invoked.filter (fun e => decide (e.1 = t1)) = [(t1, r1.key)] ∧
                    s3.invoked.filter (fun e => decide (e.1 = t2)) = [(t2, r1.key)] := by
  have hyields : ∀ (r0 : Request W) (w : W),
      Yields r0 w (r0.ret (r0.fn w).1.1 (r0.fn w).1.2) (r0.fn w).2 := by
    intro r0 w
    cases r0 with
    | get key cmd =>
      refine ⟨rfl, fun p hp => ?_, fun p e hp => ?_⟩ <;>
        simp [Request.ret, Request.fn, Guardian.getFn, Guardian.getRet, hp]
    | set key cmd =>
      exact ⟨rfl, rfl⟩
  -- the first call
  obtain ⟨s1, h1, -, hth_s1, -, h⟩ := owner_life hs t1 r1 hidle1 hfree
  obtain ⟨s1a, h1a, hr1⟩ := run_cons hrun1
  rw [h1] at h1a
  obtain rfl := Option.some.inj h1a
  obtain ⟨sb, hb, hwb, h⟩ := h l1 sa (fun a ha => (hl1 a ha).1) hr1
  obtain ⟨sb1, hb1, hrest⟩ := run_cons hrun2
  rw [hb] at hb1
  obtain rfl := Option.some.inj hb1
  obtain ⟨sc, hrc, hret⟩ := run_append hrest
  obtain ⟨s2, h2, -, hnone, h⟩ := h l2 sc (fun a ha => (hl2 a ha).1) hrc
  obtain ⟨s2a, h2a, hnil⟩ := run_cons hret
  rw [h2] at h2a
  obtain rfl := Option.some.inj h2a
  simp only [run, Option.some.injEq] at hnil
  subst hnil
  obtain ⟨hth1, -⟩ := h [] s2 rfl
  have hrsm : Reachable s2 := (hs.run hrun1).run hrun2
  have htha : sa.th t1 = Thread.owner r1 := by
    rw [run_th_other hr1 t1 (fun a ha => (hl1 a ha).1), hth_s1]
  have htaken : TakenAt s ((Action.arrive t1 r1 :: l1) ++
      Action.runFn t1 :: (l2 ++ [Action.retire t1])) (Action.arrive t1 r1 :: l1)
      (Action.runFn t1) sa sb := ⟨⟨_, rfl⟩, hrun1, hb⟩
  refine ⟨sb, r1.ret (r1.fn sa.world).1.1 (r1.fn sa.world).1.2, hb, ?_,
    owner_applies_once t1 r1 htaken htha,
    by simp [Sys.result, hth1], hnone, fun l3 sn hl3 hrun3 hfree_n => ?_⟩
  · rw [hwb]
    exact hyields r1 sa.world
  -- the second call
  have hrsn : Reachable sn := hrsm.run hrun3
  have hidle_a : sa.th t2 = Thread.idle := by
    rw [run_th_other hrun1 t2 ?_, hidle2]
    intro a ha
    rcases List.mem_cons.1 ha with rfl | ha
    · exact hne
    · exact (hl1 a ha).2
  have hidle_m : s2.th t2 = Thread.idle := by
    rw [run_th_other hrun2 t2 ?_, hidle_a]
    intro a ha
    rcases List.mem_cons.1 ha with rfl | ha
    · exact hne
    · rcases List.mem_append.1 ha with ha | ha
      · exact (hl2 a ha).2
      · simp only [List.mem_singleton] at ha
        subst ha
        exact hne
  have hidle_n : sn.th t2 = Thread.idle := by
    rw [run_th_other hrun3 t2 hl3, hidle_m]
  have hfree_2 : sn.cm.g.m r2.key = none := by
    rw [hkey]
    exact hfree_n
  obtain ⟨u1, g1, gw1, gth, -, g⟩ := owner_life hrsn t2 r2 hidle_n hfree_2
  refine ⟨u1, g1, gw1, by simp [Sys.adopted, gth], fun l4 ub hl4 hrun4 => ?_⟩
  obtain ⟨uc, gc, gwc, g⟩ := g l4 ub hl4 hrun4
  refine ⟨uc, r2.ret (r2.fn ub.world).1.1 (r2.fn ub.world).1.2, gc,
    by rw [gwc]; exact hyields r2 ub.world, fun l5 ud hl5 hrun5 => ?_⟩
  obtain ⟨u2, gr, gw2, -, g⟩ := g l5 ud hl5 hrun5
  refine ⟨u2, gr, gw2, fun l6 u3 hrun6 => ?_⟩
  obtain ⟨gth2, ginv2⟩ := g l6 u3 hrun6
  have hr3 : Reachable u3 :=
    (((((hrsn.step g1).run hrun4).step gc).run hrun5).step gr).run hrun6
  have hth3 : u3.th t1 = Thread.returned r1 t1
      (r1.ret (r1.fn sa.world).1.1 (r1.fn sa.world).1.2) :=
    run_returned hrun6 _ _ _ _ (step_returned gr _ _ _ _ (run_returned hrun5 _ _ _ _
      (step_returned gc _ _ _ _ (run_returned hrun4 _ _ _ _
        (step_returned g1 _ _ _ _ (run_returned hrun3 _ _ _ _ hth1))))))
  refine ⟨by simp [Sys.result, gth2], by simp [Sys.result, hth3],
    invoked_of_returned hr3.inv t1 r1 _ hth3, ?_⟩
  rw [← hkey]
  exact ginv2

/-- Witness of C6 as amended, which is `TestGuardian_Set`: a Set runs to completion on a
fresh guard, then a Get for the same key; both reach the store and the Get returns what
the store now holds. -/
theorem C6_reentry_after_completion_witness :
    ∃ s3, run (Sys.init FakeAPICache.empty)
        [Action.arrive 0 (Request.set "testKey" (writeFake [7, 8])), Action.runFn 0,
          Action.retire 0, Action.arrive 1 (Request.get "testKey" fetchFake),
          Action.runFn 1, Action.retire 1] = some s3 ∧
      s3.result 0 = some (Ret.set none) ∧
      s3.result 1 = some (Ret.get (some [7, 8]) none) ∧
      s3.invoked = [(0, "testKey"), (1, "testKey")] ∧
      s3.world.OpsSet = 1 ∧ s3.world.OpsGet = 1 ∧
      ∃ (sb : Sys FakeAPICache) (out2 : Ret),
        Yields (Request.get "testKey" fetchFake) sb.world out2 s3.world ∧
        s3.result 1 = some out2 := by
  have hsome : (run (Sys.init FakeAPICache.empty)
        [Action.arrive 0 (Request.set "testKey" (writeFake [7, 8])), Action.runFn 0,
          Action.retire 0]).isSome = true := rfl
  obtain ⟨sm, hm⟩ := Option.isSome_iff_exists.1 hsome
  obtain ⟨sa, hsa, hrest⟩ := run_cons hm
  have hsa1 : run (Sys.init FakeAPICache.empty)
      (Action.arrive 0 (Request.set "testKey" (writeFake [7, 8])) :: []) = some sa := by
    simp [run, hsa]
  obtain ⟨sb1, out1, _, _, _, _, _, h⟩ := C6_reentry_after_completion
    (Reachable.init FakeAPICache.empty) 0 1
    (Request.set "testKey" (writeFake [7, 8])) (Request.get "testKey" fetchFake) [] []
    sa sm rfl (by decide) rfl rfl rfl (by simp) (by simp) hsa1 hrest
  have hmreg : (run (Sys.init FakeAPICache.empty)
        [Action.arrive 0 (Request.set "testKey" (writeFake [7, 8])), Action.runFn 0,
          Action.retire 0]).bind (fun s => s.cm.g.m "testKey") = none := by decide
  rw [hm] at hmreg
  obtain ⟨s1, h1, -, -, h⟩ := h [] sm (by simp) rfl (by simpa using hmreg)
  obtain ⟨sc, out2, hc, hy, h⟩ := h [] s1 (by simp) rfl
  obtain ⟨s2, h2, hw2, h⟩ := h [] sc (by simp) rfl
  obtain ⟨hres2, -⟩ := h [] s2 rfl
  have hall : run (Sys.init FakeAPICache.empty)
      [Action.arrive 0 (Request.set "testKey" (writeFake [7, 8])), Action.runFn 0,
        Action.retire 0, Action.arrive 1 (Request.get "testKey" fetchFake),
        Action.runFn 1, Action.retire 1] = some s2 := by
    have hlast : run sm [Action.arrive 1 (Request.get "testKey" fetchFake),
        Action.runFn 1, Action.retire 1] = some s2 := by
      simp [run, h1, hc, h2]
    exact run_append_of hm hlast
  have hval : (run (Sys.init FakeAPICache.empty)
      [Action.arrive 0 (Request.set "testKey" (writeFake [7, 8])), Action.runFn 0,
        Action.retire 0, Action.arrive 1 (Request.get "testKey" fetchFake),
        Action.runFn 1, Action.retire 1]).map
      (fun s => (s.result 0, s.result 1, s.invoked, s.world.OpsSet, s.world.OpsGet))
      = some (some (Ret.set none), some (Ret.get (some [7, 8]) none),
          [(0, "testKey"), (1, "testKey")], 1, 1) := rfl
  rw [hall] at hval
  simp only [Option.map_some', Option.some.injEq, Prod.mk.injEq] at hval
  refine ⟨s2, hall, hval.1, hval.2.1, hval.2.2.1, hval.2.2.2.1, hval.2.2.2.2,
    s1, out2, ?_, hres2⟩
  rw [hw2]
  exact hy

/-- C6 as stated fails, in two ways, on the store of the tests.  First: a Set writing
`[2]` arrives while a Set writing `[1]` is registered for the key, joins it and runs to
completion, and a Get for the key is made afterwards; the first action, the write of
`[2]`, was never applied (it is on no record, the store was written once and holds `[1]`).
Second: a Set runs to completion, and a Set writing `[2]` is made afterwards, while a Set
writing `[3]` that arrived in between is registered; the second action, the write of
`[2]`, is never applied and the caller is handed the outcome of the write of `[3]`. -/
theorem C6_counterexample :
    (run (Sys.init FakeAPICache.empty)
        [Action.arrive 0 (Request.set "testKey" (writeFake [1])),
          Action.arrive 1 (Request.set "testKey" (writeFake [2])),
          Action.runFn 0, Action.retire 0, Action.wake 1,
          Action.arrive 2 (Request.get "testKey" fetchFake),
          Action.runFn 2, Action.retire 2]).map
        (fun s => (s.result 1, s.runs 1, s.world.OpsSet, s.world.M "testKey", s.result 2))
      = some (some (Ret.set none), 0, 1, some [1], some (Ret.get (some [1]) none)) ∧
    (run (Sys.init FakeAPICache.empty)
        [Action.arrive 0 (Request.set "testKey" (writeFake [1])),
          Action.runFn 0, Action.retire 0,
          Action.arrive 3 (Request.set "testKey" (writeFake [3])),
          Action.arrive 2 (Request.set "testKey" (writeFake [2])),
          Action.runFn 3, Action.retire 3, Action.wake 2]).map
        (fun s => (s.result 0, s.result 2, s.runs 2, s.adopted 2, s.world.OpsSet,
          s.world.M "testKey"))
      = some (some (Ret.set none), some (Ret.set none), 0, some 3, 2, some [3]) :=
  ⟨rfl, rfl⟩

end guardian
